import Mathlib

/-!
# A verification of the lingo word-guessing assistant

Shallow embedding of the core of `src/main.rs` (a Wordle-style solver):
the clue data model, candidate matching (`Word::has`), scoring
(`Word::score`), the feedback codec (`Clue::from_input`), candidate-set
filtering and letter-frequency statistics (`Dictionary::filter`,
`Dictionary::char_frequency`), ranking (`Dictionary::sort`) and the
session orchestration (`get_guess`, `reset`, `hint`).

Rust machine integers (`u32`, `usize`) are embedded as `Nat`: all counts
are small (bounded by the dictionary size and the word length), so no
wraparound is reachable and `Nat` is exact.  Fallible operations (Rust
indexing panics) are embedded as `Option`-returning functions.  Strings
are lists of characters; `HashMap<char, Vec<u32>>` is an association
list, which is extensionally faithful because the map is only ever read
through single-key lookup, never iterated.
-/

namespace Lingo

/-- `WORD_LEN` from the source: the fixed word length. -/
def WORD_LEN : Nat := 5

/-- The `Hint` enum from the source.  `Yes` is the spec's `Match`, `No` is
`Absent`, `Maybe` is `PresentElsewhereAllowed`, `Unset` is `Unresolved`. -/
inductive Hint where
  | Yes
  | No
  | Maybe
  | Unset
deriving DecidableEq, Repr

/-- The `Clue` struct from the source: a letter, a minimum occurrence
count (`occur`) and one hint per position. -/
structure Clue where
  c : Char
  occur : Nat
  hints : List Hint
deriving DecidableEq, Repr

/-- The `Word` struct from the source. -/
structure Word where
  word : List Char
deriving DecidableEq, Repr

/-- Loop body of `Word::has`, with the running occurrence count as an
accumulator.  The early `return false` of the Rust loop becomes a
non-recursive `false` branch; the trailing occurrence check is the base
case.  The word and hint lists are zipped, which agrees with the Rust
indexing whenever the hint vector is at least as long as the word (the
only case the program exercises: both have length `WORD_LEN`). -/
def Word.hasAux (cl : Clue) : List (Char × Hint) → Nat → Bool
  | [], occ => !(decide (occ < cl.occur))
  | (c, h) :: rest, occ =>
    let occ2 := if c = cl.c then occ + 1 else occ
    match h with
    | Hint.Yes => if c ≠ cl.c then false else Word.hasAux cl rest occ2
    | Hint.No => if c = cl.c then false else Word.hasAux cl rest occ2
    | _ => Word.hasAux cl rest occ2

/-- `Word::has` from the source: does this word satisfy the clue? -/
def Word.has (w : Word) (cl : Clue) : Bool :=
  Word.hasAux cl (w.word.zip cl.hints) 0

/-- The `CharFrequency` type from the source
(`HashMap<char, Vec<u32>>`), embedded as an association list. -/
abbrev CharFrequency : Type := List (Char × List Nat)

/-- Key lookup in a `CharFrequency` (the source's `freq.get(&c)`). -/
def cfLookup : CharFrequency → Char → Option (List Nat)
  | [], _ => none
  | (c, v) :: rest, x => if c = x then some v else cfLookup rest x

/-- Replace the value stored under an existing key (the write-back of the
source's `freq.get_mut(&c)` patterns); a no-op when the key is absent. -/
def cfUpdate : CharFrequency → Char → List Nat → CharFrequency
  | [], _, _ => []
  | (c, v) :: rest, x, nv =>
    if c = x then (c, nv) :: rest else (c, v) :: cfUpdate rest x nv

/-- The frequency vector for a letter, `[0, 0, 0, 0, 0]` when the letter
has no entry — exactly how every reader of the table treats a missing
entry (`Word::score` skips it, contributing zero per position). -/
def freqAt (m : CharFrequency) (c : Char) (i : Nat) : Nat :=
  ((cfLookup m c).getD (List.replicate WORD_LEN 0)).getD i 0

/-- Well-formedness of a frequency table: every stored vector has the
word length.  Every table the program builds satisfies this. -/
def cfWF (m : CharFrequency) : Prop := ∀ p ∈ m, p.2.length = 5

/-- `chars.sort()` from the source (ascending character order); a stable
sort, embedded as insertion sort, whose output any correct sort
matches. -/
def sortChars (l : List Char) : List Char :=
  List.insertionSort (· ≤ ·) l

/-- `Vec::dedup` from the source: remove *consecutive* duplicates,
keeping the first element of each run. -/
def dedupConsec : List Char → List Char
  | [] => []
  | [a] => [a]
  | a :: b :: rest =>
    if a = b then dedupConsec (b :: rest) else a :: dedupConsec (b :: rest)

/-- `Word::score` from the source: over the word's distinct letters
(sorted and deduplicated exactly as the Rust does), add `count * 4` for
each frequency-vector position holding the word's own letter and `count`
otherwise; letters with no frequency entry contribute nothing.  The Rust
`self.word.chars().nth(idx).unwrap()` is total here via `getD`, which
agrees with it whenever the frequency vectors are no longer than the
word (the program only builds vectors of length `WORD_LEN`). -/
def Word.score (w : Word) (freq : CharFrequency) : Nat :=
  let chars := dedupConsec (sortChars w.word)
  chars.foldl
    (fun sc c =>
      match cfLookup freq c with
      | some f =>
        (List.range f.length).foldl
          (fun sc2 i =>
            if w.word.getD i ' ' = c then sc2 + f.getD i 0 * 4
            else sc2 + f.getD i 0)
          sc
      | none => sc)
    0

/-- The `Dictionary` struct from the source: an ordered word list plus
the letters whose information is fully resolved. -/
structure Dictionary where
  words : List Word
  ignore_letters : List Char
deriving DecidableEq, Repr

/-- `Dictionary::filter` from the source: push the clue's letter onto
`ignore_letters` when no hint is `Maybe`, then retain only words
satisfying the clue. -/
def Dictionary.filter (d : Dictionary) (clue : Clue) : Dictionary :=
  let certain := !(clue.hints.any (fun h => h = Hint.Maybe))
  { words := d.words.filter (fun w => w.has clue)
    ignore_letters :=
      if certain then d.ignore_letters ++ [clue.c] else d.ignore_letters }

/-- `Dictionary::sort` from the source: stably sort the words by
descending score (`sort_by_cached_key(|w| -(score as i64))`) and return
the top entry.  Rust's stable sort is embedded as insertion sort, whose
output every stable sort matches; the Rust `self.words[0]` panics on an
empty list, embedded as `head?`. -/
def Dictionary.sort (d : Dictionary) (freq : CharFrequency) :
    Option Word × Dictionary :=
  let ws := List.insertionSort
    (fun a b => Word.score b freq ≤ Word.score a freq) d.words
  (ws.head?, { d with words := ws })

/-- `Dictionary::empty` from the source. -/
def Dictionary.empty : Dictionary :=
  { words := [], ignore_letters := [] }

/-- `Dictionary::char_frequency`, single-cell step: increment the count
for letter `c` at position `i` (`f[idx] += 1`, or insert a fresh vector
with a single `1`). -/
def cfIncr (m : CharFrequency) (c : Char) (i : Nat) : CharFrequency :=
  match cfLookup m c with
  | some f => cfUpdate m c (f.set i (f.getD i 0 + 1))
  | none => m ++ [(c, (List.replicate WORD_LEN 0).set i 1)]

/-- `Dictionary::char_frequency` from the source: count, for every
letter, how many words hold it at each position, then zero out the
vectors of all `ignore_letters`. -/
def Dictionary.char_frequency (d : Dictionary) : CharFrequency :=
  let freq := d.words.foldl
    (fun m w =>
      (List.range w.word.length).foldl
        (fun m2 i => cfIncr m2 (w.word.getD i ' ') i) m)
    []
  d.ignore_letters.foldl
    (fun m c =>
      match cfLookup m c with
      | some _ => cfUpdate m c (List.replicate WORD_LEN 0)
      | none => m)
    freq

/-- Match indices of a letter in the guess (the source's
`guess.match_indices(c)`): the ascending list of positions holding
`c`. -/
def matchIndices (guess : List Char) (c : Char) : List Nat :=
  (List.range guess.length).filter (fun i => guess.getD i ' ' = c)

/-- Loop body of `Clue::from_input` over one match index: classify the
feedback code at that position and set the hint.  The accumulator is
`(hints, correct, wrong_place, wrong)`. -/
def clueStep (inp : List Char) (acc : List Hint × Nat × Nat × Nat)
    (idx : Nat) : List Hint × Nat × Nat × Nat :=
  match acc with
  | (hints, correct, wrong_place, wrong) =>
    if inp.getD idx ' ' = 'c' then
      (hints.set idx Hint.Yes, correct + 1, wrong_place, wrong)
    else if inp.getD idx ' ' = 'w' then
      (hints.set idx Hint.No, correct, wrong_place + 1, wrong)
    else
      (hints.set idx Hint.No, correct, wrong_place, wrong + 1)

/-- The clue `Clue::from_input` builds for one distinct letter `c` of the
guess (the body of its `for c in chars` loop). -/
def Clue.from_input_one (guess inp : List Char) (c : Char) : Clue :=
  match (matchIndices guess c).foldl (clueStep inp)
      (List.replicate WORD_LEN Hint.Unset, 0, 0, 0) with
  | (hints, correct, wrong_place, wrong) =>
    let replace := if wrong > 0 then Hint.No else Hint.Maybe
    { c := c
      occur := correct + (if wrong_place > 0 then 1 else 0)
      hints := hints.map (fun h => if h = Hint.Unset then replace else h) }

/-- `Clue::from_input` from the source: one clue per distinct letter of
the guess, in ascending letter order.  This is the total value of the
computation; the partiality of the Rust indexing is captured separately
by `Clue.from_input?`. -/
def Clue.from_input (guess inp : List Char) : List Clue :=
  (dedupConsec (sortChars guess)).map (Clue.from_input_one guess inp)

/-- Panic-aware loop body of `Clue::from_input`: the Rust
`input_chars[idx]` read and `hints[idx] = …` write both panic when `idx`
is out of bounds, embedded as `none`. -/
def clueStepChecked (inp : List Char) (acc : List Hint × Nat × Nat × Nat)
    (idx : Nat) : Option (List Hint × Nat × Nat × Nat) :=
  match acc with
  | (hints, correct, wrong_place, wrong) =>
    match inp.get? idx with
    | none => none
    | some ic =>
      if idx < hints.length then
        if ic = 'c' then some (hints.set idx Hint.Yes, correct + 1, wrong_place, wrong)
        else if ic = 'w' then some (hints.set idx Hint.No, correct, wrong_place + 1, wrong)
        else some (hints.set idx Hint.No, correct, wrong_place, wrong + 1)
      else none

/-- Panic-aware clue construction for one letter. -/
def Clue.from_input_one? (guess inp : List Char) (c : Char) : Option Clue :=
  match (matchIndices guess c).foldlM (clueStepChecked inp)
      (List.replicate WORD_LEN Hint.Unset, 0, 0, 0) with
  | none => none
  | some (hints, correct, wrong_place, wrong) =>
    let replace := if wrong > 0 then Hint.No else Hint.Maybe
    some
      { c := c
        occur := correct + (if wrong_place > 0 then 1 else 0)
        hints := hints.map (fun h => if h = Hint.Unset then replace else h) }

/-- Panic-aware `Clue::from_input`: `none` exactly when the Rust function
panics (an index beyond the feedback string or beyond the
`WORD_LEN`-sized hint vector). -/
def Clue.from_input? (guess inp : List Char) : Option (List Clue) :=
  (dedupConsec (sortChars guess)).mapM (Clue.from_input_one? guess inp)

/-- The `State` struct from the source: full dictionary, current
candidate answers, current guess pool. -/
structure State where
  all_words : Dictionary
  valid_words : Dictionary
  valid_guesses : Dictionary
deriving DecidableEq, Repr

/-- The `"No possible words!"` message `get_guess` returns when no
candidate remains. -/
def noWordsMsg : List Char := "No possible words!".toList

/-- `get_guess` from the source.  Returns the message / chosen word and
the state as mutated by the call (`Dictionary::sort` reorders
`valid_guesses` in place); `none` embeds the panic of
`state.valid_guesses.sort(..)` reading `words[0]` of an empty list. -/
def get_guess (s : State) : Option (List Char × State) :=
  match s.valid_words.words with
  | [] => some (noWordsMsg, s)
  | [w] => some (w.word, s)
  | _ =>
    let freq := s.valid_words.char_frequency
    let r := s.valid_guesses.sort freq
    match r.1 with
    | some w => some (w.word, { s with valid_guesses := r.2 })
    | none => none

/-- The seed clue the `reset` handler builds: the anchor letter must be
at position 0, everything else is open. -/
def seedClue (c : Char) : Clue :=
  { c := c
    occur := 1
    hints := [Hint.Yes, Hint.Maybe, Hint.Maybe, Hint.Maybe, Hint.Maybe] }

/-- The `reset` handler from the source: filter a clone of the full
dictionary by the seed clue, install it as both `valid_words` and
`valid_guesses`, and return `get_guess`. -/
def reset (c : Char) (s : State) : Option (List Char × State) :=
  let words := s.all_words.filter (seedClue c)
  get_guess { s with valid_words := words, valid_guesses := words }

/-- The `hint` handler from the source (the spec's `submit_feedback` /
`apply_feedback`): build the clues from the guess and feedback, filter
`valid_words` by each in turn, and return `get_guess`.  `none` embeds a
panic (either inside `Clue::from_input` or inside `get_guess`). -/
def hint (guess inp : List Char) (s : State) : Option (List Char × State) :=
  match Clue.from_input? guess inp with
  | none => none
  | some clues =>
    get_guess
      { s with valid_words := clues.foldl Dictionary.filter s.valid_words }

/-- Session states reachable through the two handlers, starting from the
process's initial state (a loaded dictionary with both working sets
empty). -/
inductive Reachable : State → Prop where
  | init (d : Dictionary) :
      Reachable ⟨d, Dictionary.empty, Dictionary.empty⟩
  | reset_step (s : State) (c : Char) (msg : List Char) (s2 : State) :
      Reachable s → reset c s = some (msg, s2) → Reachable s2
  | hint_step (s : State) (guess inp msg : List Char) (s2 : State) :
      Reachable s → hint guess inp s = some (msg, s2) → Reachable s2

/-- The target's honest per-position feedback for a guess, as the
self-consistency property describes it: `'c'` where the guessed letter
equals the target's letter at that position, `'w'` where it differs but
occurs somewhere in the target, `'x'` (any non-`'c'`/`'w'` code) where
it is absent.  This is a specification-side definition used to state the
self-consistency claim; feedback generation is external to the
program. -/
def honestFeedback (target guess : List Char) : List Char :=
  (List.range guess.length).map (fun i =>
    if guess.getD i ' ' = target.getD i ' ' then 'c'
    else if guess.getD i ' ' ∈ target then 'w'
    else 'x')

/-- The answers set after honestly-reported feedback for a sequence of
guesses against target `T`: for each guess in turn, the codec's clues
are applied by `Dictionary::filter` exactly as the `hint` handler
does. -/
def honestProcess (T : List Char) (guesses : List (List Char))
    (d : Dictionary) : Dictionary :=
  guesses.foldl
    (fun d2 g => (Clue.from_input g (honestFeedback T g)).foldl
      Dictionary.filter d2) d

/-! ## Matching: characterization of `Word::has` -/

/-- The loop of `Word::has` accepts iff no scanned position violates a
`Yes`/`No` hint and the final occurrence count reaches `occur`. -/
lemma hasAux_eq_true (cl : Clue) :
    ∀ (l : List (Char × Hint)) (occ : Nat),
      Word.hasAux cl l occ = true ↔
        ((∀ p ∈ l, (p.2 = Hint.Yes → p.1 = cl.c) ∧ (p.2 = Hint.No → p.1 ≠ cl.c)) ∧
          cl.occur ≤ occ + (l.map Prod.fst).count cl.c)
  | [], occ => by simp [Word.hasAux, Nat.not_lt]
  | (c, h) :: rest, occ => by
    have ih := hasAux_eq_true cl rest
    by_cases hc : c = cl.c <;>
      cases h <;>
      simp [Word.hasAux, hc, ih, List.count_cons] <;>
      intro _ <;> omega

/-- `Word::has` in positional form, for the real shapes (length-5 word,
length-5 hint vector). -/
lemma has_eq_true_iff (w : Word) (cl : Clue) (hw : w.word.length = 5)
    (hc : cl.hints.length = 5) :
    w.has cl = true ↔
      ((∀ i < 5,
        (cl.hints.getD i Hint.Unset = Hint.Yes → w.word.getD i ' ' = cl.c) ∧
        (cl.hints.getD i Hint.Unset = Hint.No → w.word.getD i ' ' ≠ cl.c)) ∧
        cl.occur ≤ w.word.count cl.c) := by
  rw [Word.has, hasAux_eq_true]
  have hfst : (w.word.zip cl.hints).map Prod.fst = w.word :=
    List.map_fst_zip _ _ (by omega)
  have hlen : (w.word.zip cl.hints).length = 5 := by
    simp [List.length_zip, hw, hc]
  constructor
  · rintro ⟨h1, h2⟩
    refine ⟨?_, by simpa [hfst] using h2⟩
    intro i hi
    have hiz : i < (w.word.zip cl.hints).length := by omega
    have hmem : (w.word.zip cl.hints).get ⟨i, hiz⟩ ∈ w.word.zip cl.hints :=
      List.get_mem _ _ _
    have hget : (w.word.zip cl.hints).get ⟨i, hiz⟩ =
        (w.word.get ⟨i, by omega⟩, cl.hints.get ⟨i, by omega⟩) := by
      simp [List.get_eq_getElem, List.getElem_zip]
    rw [hget] at hmem
    have := h1 _ hmem
    simpa [List.getD_eq_getElem, List.get_eq_getElem, hw, hc, hi] using this
  · rintro ⟨h1, h2⟩
    refine ⟨?_, by simpa [hfst] using h2⟩
    intro p hp
    obtain ⟨i, hip⟩ := List.mem_iff_get.1 hp
    have hi5 : (i : Nat) < 5 := by
      have := i.isLt
      omega
    have hget : (w.word.zip cl.hints).get i =
        (w.word.get ⟨i, by omega⟩, cl.hints.get ⟨i, by omega⟩) := by
      simp [List.get_eq_getElem, List.getElem_zip]
    have hcons := h1 i hi5
    rw [← hip, hget]
    simpa [List.getD_eq_getElem, List.get_eq_getElem, hw, hc, hi5] using hcons

/-- Negated form: `Word::has` rejects iff a `Yes` position mismatches, a
`No` position matches, or the occurrence count falls short. -/
lemma has_eq_false_iff (w : Word) (cl : Clue) (hw : w.word.length = 5)
    (hc : cl.hints.length = 5) :
    w.has cl = false ↔
      ((∃ i < 5, cl.hints.getD i Hint.Unset = Hint.Yes ∧
          w.word.getD i ' ' ≠ cl.c) ∨
        (∃ i < 5, cl.hints.getD i Hint.Unset = Hint.No ∧
          w.word.getD i ' ' = cl.c) ∨
        w.word.count cl.c < cl.occur) := by
  rw [← Bool.not_eq_true, has_eq_true_iff w cl hw hc]
  constructor
  · intro hne
    by_contra hcon
    push_neg at hcon
    obtain ⟨hA, hB, hC⟩ := hcon
    exact hne ⟨fun i hi => ⟨hA i hi, hB i hi⟩, by omega⟩
  · rintro (⟨i, hi, hy, hne⟩ | ⟨i, hi, hn, heq⟩ | hcnt) ⟨h1, h2⟩
    · exact hne ((h1 i hi).1 hy)
    · exact (h1 i hi).2 hn heq
    · omega

/-- C1: `Word::has` rejects a word exactly when some `Match` position
holds a different letter, some `Absent` position holds the clue's
letter, or the letter's occurrence count is below `min_occurrences`;
`PresentElsewhereAllowed` positions impose nothing.  In particular,
`"crane"` satisfies the clue for `'a'` with `Match` at index 2 and
`PresentElsewhereAllowed` elsewhere, and fails it with `Absent` at
index 2.  (The check is a pure function of the word and clue.) -/
theorem C1_has_rejects_iff :
    (∀ (w : Word) (cl : Clue), w.word.length = 5 → cl.hints.length = 5 →
      (w.has cl = false ↔
        ((∃ i < 5, cl.hints.getD i Hint.Unset = Hint.Yes ∧
            w.word.getD i ' ' ≠ cl.c) ∨
          (∃ i < 5, cl.hints.getD i Hint.Unset = Hint.No ∧
            w.word.getD i ' ' = cl.c) ∨
          w.word.count cl.c < cl.occur))) ∧
    Word.has ⟨"crane".toList⟩
      ⟨'a', 1, [Hint.Maybe, Hint.Maybe, Hint.Yes, Hint.Maybe, Hint.Maybe]⟩ = true ∧
    Word.has ⟨"crane".toList⟩
      ⟨'a', 1, [Hint.Maybe, Hint.Maybe, Hint.No, Hint.Maybe, Hint.Maybe]⟩ = false :=
  ⟨fun w cl hw hc => has_eq_false_iff w cl hw hc, by decide, by decide⟩

/-- Witness for C1 at the word `"crane"` and the `Absent`-at-index-2
clue for `'a'`. -/
theorem C1_has_rejects_iff_witness :
    Word.has ⟨"crane".toList⟩
        ⟨'a', 1, [Hint.Maybe, Hint.Maybe, Hint.No, Hint.Maybe, Hint.Maybe]⟩ = false ↔
      ((∃ i < 5,
          [Hint.Maybe, Hint.Maybe, Hint.No, Hint.Maybe, Hint.Maybe].getD i Hint.Unset =
            Hint.Yes ∧ "crane".toList.getD i ' ' ≠ 'a') ∨
        (∃ i < 5,
          [Hint.Maybe, Hint.Maybe, Hint.No, Hint.Maybe, Hint.Maybe].getD i Hint.Unset =
            Hint.No ∧ "crane".toList.getD i ' ' = 'a') ∨
        "crane".toList.count 'a' < 1) :=
  C1_has_rejects_iff.1 ⟨"crane".toList⟩
    ⟨'a', 1, [Hint.Maybe, Hint.Maybe, Hint.No, Hint.Maybe, Hint.Maybe]⟩
    (by decide) (by decide)

/-! ## Filtering is monotone (C7) and `get_guess` frame facts -/

/-- What a successful `get_guess` call does to the state: the full
dictionary and the answer set are untouched; the guess pool keeps its
words (possibly reordered by the ranking sort) and its resolved
letters. -/
lemma get_guess_state {s : State} {msg : List Char} {s2 : State}
    (h : get_guess s = some (msg, s2)) :
    s2.all_words = s.all_words ∧ s2.valid_words = s.valid_words ∧
      s2.valid_guesses.words.Perm s.valid_guesses.words ∧
      s2.valid_guesses.ignore_letters = s.valid_guesses.ignore_letters := by
  unfold get_guess at h
  cases hvw : s.valid_words.words with
  | nil =>
    rw [hvw] at h
    cases h
    exact ⟨rfl, rfl, List.Perm.refl _, rfl⟩
  | cons w rest =>
    cases rest with
    | nil =>
      rw [hvw] at h
      cases h
      exact ⟨rfl, rfl, List.Perm.refl _, rfl⟩
    | cons w2 rest2 =>
      rw [hvw] at h
      simp only [Dictionary.sort] at h
      cases hh : (List.insertionSort
          (fun a b => Word.score b (s.valid_words.char_frequency) ≤
            Word.score a (s.valid_words.char_frequency))
          s.valid_guesses.words).head? with
      | none => rw [hh] at h; cases h
      | some w0 =>
        rw [hh] at h
        cases h
        exact ⟨rfl, rfl, List.perm_insertionSort _ _, rfl⟩

/-- One filter step keeps a subsequence of the word list. -/
lemma filter_words_sublist (d : Dictionary) (clue : Clue) :
    (d.filter clue).words.Sublist d.words :=
  List.filter_sublist _

/-- Applying any sequence of clues keeps a subsequence of the word
list. -/
lemma foldl_filter_words_sublist :
    ∀ (clues : List Clue) (d : Dictionary),
      (clues.foldl Dictionary.filter d).words.Sublist d.words
  | [], _ => List.Sublist.refl _
  | c :: rest, d =>
    (foldl_filter_words_sublist rest (d.filter c)).trans
      (filter_words_sublist d c)

/-- What a successful `hint` call does to the state: the clue list is
built from the inputs, `valid_words` is the old one filtered by each
clue, the full dictionary is untouched, and the guess pool keeps its
words (up to the ranking sort's reordering) and resolved letters. -/
lemma hint_state {guess inp : List Char} {s : State} {msg : List Char}
    {s2 : State} (h : hint guess inp s = some (msg, s2)) :
    ∃ clues, Clue.from_input? guess inp = some clues ∧
      s2.all_words = s.all_words ∧
      s2.valid_words = clues.foldl Dictionary.filter s.valid_words ∧
      s2.valid_guesses.words.Perm s.valid_guesses.words ∧
      s2.valid_guesses.ignore_letters = s.valid_guesses.ignore_letters := by
  unfold hint at h
  cases hfi : Clue.from_input? guess inp with
  | none => rw [hfi] at h; cases h
  | some clues =>
    rw [hfi] at h
    have hg := get_guess_state h
    exact ⟨clues, rfl, hg.1, hg.2.1, hg.2.2.1, hg.2.2.2⟩

/-- C7: one filter step retains a sub-collection (same words, same
relative order), so the answer set's size never increases, over a single
clue, over any clue sequence, and over a whole `hint` call. -/
theorem C7_filter_never_grows :
    (∀ (d : Dictionary) (clue : Clue),
      (d.filter clue).words.Sublist d.words ∧
        (d.filter clue).words.length ≤ d.words.length) ∧
    (∀ (d : Dictionary) (clues : List Clue),
      (clues.foldl Dictionary.filter d).words.length ≤ d.words.length) ∧
    (∀ (guess inp : List Char) (s : State) (msg : List Char) (s2 : State),
      hint guess inp s = some (msg, s2) →
        s2.valid_words.words.length ≤ s.valid_words.words.length) := by
  refine ⟨fun d clue => ⟨filter_words_sublist d clue,
      (filter_words_sublist d clue).length_le⟩,
    fun d clues => (foldl_filter_words_sublist clues d).length_le, ?_⟩
  intro guess inp s msg s2 h
  obtain ⟨clues, -, -, hvw, -, -⟩ := hint_state h
  calc s2.valid_words.words.length
      = (clues.foldl Dictionary.filter s.valid_words).words.length := by rw [hvw]
    _ ≤ s.valid_words.words.length :=
        (foldl_filter_words_sublist clues s.valid_words).length_le

/-- Witness for C7's `hint` clause: a concrete successful call. -/
theorem C7_filter_never_grows_witness :
    hint "eee".toList "xxx".toList
        ⟨Dictionary.empty, ⟨[⟨"crane".toList⟩], []⟩, ⟨[⟨"crane".toList⟩], []⟩⟩ =
      some (noWordsMsg,
        ⟨Dictionary.empty, ⟨[], ['e']⟩, ⟨[⟨"crane".toList⟩], []⟩⟩) ∧
    ([] : List Word).length ≤ [(⟨"crane".toList⟩ : Word)].length :=
  ⟨by decide, C7_filter_never_grows.2.2 "eee".toList "xxx".toList
    ⟨Dictionary.empty, ⟨[⟨"crane".toList⟩], []⟩, ⟨[⟨"crane".toList⟩], []⟩⟩
    noWordsMsg
    ⟨Dictionary.empty, ⟨[], ['e']⟩, ⟨[⟨"crane".toList⟩], []⟩⟩ (by decide)⟩

/-! ## Terminal branches of `get_guess` (C4) -/

/-- C4: with no candidate left `get_guess` returns the no-candidates
message; with exactly one candidate it returns that word directly, and
in both cases the result does not depend on the guess pool (no frequency
table or ranking is consulted); only with two or more candidates does it
rank the pool by the answer set's letter frequencies. -/
theorem C4_get_guess_terminal :
    (∀ s : State, s.valid_words.words = [] →
      get_guess s = some (noWordsMsg, s)) ∧
    (∀ (s : State) (w : Word), s.valid_words.words = [w] →
      get_guess s = some (w.word, s)) ∧
    (∀ s1 s2 : State, s1.valid_words = s2.valid_words →
      s1.valid_words.words.length ≤ 1 →
      (get_guess s1).map Prod.fst = (get_guess s2).map Prod.fst) ∧
    (∀ s : State, 2 ≤ s.valid_words.words.length →
      get_guess s =
        match (s.valid_guesses.sort s.valid_words.char_frequency).1 with
        | some w => some (w.word,
            { s with valid_guesses :=
                (s.valid_guesses.sort s.valid_words.char_frequency).2 })
        | none => none) := by
  have h0 : ∀ s : State, s.valid_words.words = [] →
      get_guess s = some (noWordsMsg, s) := by
    intro s h
    unfold get_guess
    rw [h]
  have h1 : ∀ (s : State) (w : Word), s.valid_words.words = [w] →
      get_guess s = some (w.word, s) := by
    intro s w h
    unfold get_guess
    rw [h]
  refine ⟨h0, h1, ?_, ?_⟩
  · intro s1 s2 heq hlen
    cases hvw : s1.valid_words.words with
    | nil =>
      rw [h0 s1 hvw, h0 s2 (by rw [← heq]; exact hvw)]
      simp
    | cons w rest =>
      cases rest with
      | nil =>
        rw [h1 s1 w hvw, h1 s2 w (by rw [← heq]; exact hvw)]
        simp
      | cons w2 rest2 => rw [hvw] at hlen; simp at hlen
  · intro s hlen
    cases hvw : s.valid_words.words with
    | nil => rw [hvw] at hlen; simp at hlen
    | cons w rest =>
      cases rest with
      | nil => rw [hvw] at hlen; simp at hlen
      | cons w2 rest2 =>
        unfold get_guess
        rw [hvw]

/-- Witness for C4 at concrete one-word and empty answer sets. -/
theorem C4_get_guess_terminal_witness :
    get_guess ⟨Dictionary.empty, ⟨[⟨"crane".toList⟩], []⟩, Dictionary.empty⟩ =
      some ("crane".toList,
        ⟨Dictionary.empty, ⟨[⟨"crane".toList⟩], []⟩, Dictionary.empty⟩) ∧
    get_guess ⟨Dictionary.empty, Dictionary.empty, Dictionary.empty⟩ =
      some (noWordsMsg, ⟨Dictionary.empty, Dictionary.empty, Dictionary.empty⟩) :=
  ⟨C4_get_guess_terminal.2.1
      ⟨Dictionary.empty, ⟨[⟨"crane".toList⟩], []⟩, Dictionary.empty⟩
      ⟨"crane".toList⟩ rfl,
    C4_get_guess_terminal.1
      ⟨Dictionary.empty, Dictionary.empty, Dictionary.empty⟩ rfl⟩

/-! ## Frame effects of `hint` (C9) -/

/-- Counterexample to C9 as stated: a `hint` call that leaves the guess
pool's membership intact but *reorders* it (the ranking sort mutates
`valid_guesses` in place), so the pool is not unchanged
order-included.  The harmless clue from guess `"fffff"`, feedback
`"xxxxx"` keeps both answers; the pool `[abcdd, abcde]` is re-sorted by
descending score to `[abcde, abcdd]`. -/
theorem C9_counterexample :
    hint "fffff".toList "xxxxx".toList
        ⟨Dictionary.empty,
          ⟨[⟨"abcde".toList⟩, ⟨"abcdd".toList⟩], []⟩,
          ⟨[⟨"abcdd".toList⟩, ⟨"abcde".toList⟩], []⟩⟩ =
      some ("abcde".toList,
        ⟨Dictionary.empty,
          ⟨[⟨"abcde".toList⟩, ⟨"abcdd".toList⟩], ['f']⟩,
          ⟨[⟨"abcde".toList⟩, ⟨"abcdd".toList⟩], []⟩⟩) ∧
    [(⟨"abcde".toList⟩ : Word), ⟨"abcdd".toList⟩] ≠
      [(⟨"abcdd".toList⟩ : Word), ⟨"abcde".toList⟩] := by
  constructor
  · decide
  · decide

/-- C9, amended: a `hint` call only filters `valid_words`; the source
dictionary is untouched, and the guess pool keeps exactly the same words
and resolved letters, though the ranking step may reorder it; in
particular any word dropped from the answers stays in the pool whenever
it was there before. -/
theorem C9_hint_only_filters_answers :
    ∀ (guess inp : List Char) (s : State) (msg : List Char) (s2 : State),
      hint guess inp s = some (msg, s2) →
        s2.all_words = s.all_words ∧
        s2.valid_guesses.words.Perm s.valid_guesses.words ∧
        s2.valid_guesses.ignore_letters = s.valid_guesses.ignore_letters ∧
        (∃ clues, Clue.from_input? guess inp = some clues ∧
          s2.valid_words = clues.foldl Dictionary.filter s.valid_words) ∧
        (∀ w ∈ s.valid_words.words, w ∈ s.valid_guesses.words →
          w ∈ s2.valid_guesses.words) := by
  intro guess inp s msg s2 h
  obtain ⟨clues, hfi, hall, hvw, hperm, hign⟩ := hint_state h
  exact ⟨hall, hperm, hign, ⟨clues, hfi, hvw⟩,
    fun w _ hw => hperm.mem_iff.2 hw⟩

/-- Witness for C9 at the concrete reordering call. -/
theorem C9_hint_only_filters_answers_witness :
    (⟨Dictionary.empty,
        ⟨[⟨"abcde".toList⟩, ⟨"abcdd".toList⟩], ['f']⟩,
        ⟨[⟨"abcde".toList⟩, ⟨"abcdd".toList⟩], []⟩⟩ : State).all_words =
      (⟨Dictionary.empty,
        ⟨[⟨"abcde".toList⟩, ⟨"abcdd".toList⟩], []⟩,
        ⟨[⟨"abcdd".toList⟩, ⟨"abcde".toList⟩], []⟩⟩ : State).all_words ∧
    [(⟨"abcde".toList⟩ : Word), ⟨"abcdd".toList⟩].Perm
      [(⟨"abcdd".toList⟩ : Word), ⟨"abcde".toList⟩] := by
  have h := C9_hint_only_filters_answers "fffff".toList "xxxxx".toList
    ⟨Dictionary.empty,
      ⟨[⟨"abcde".toList⟩, ⟨"abcdd".toList⟩], []⟩,
      ⟨[⟨"abcdd".toList⟩, ⟨"abcde".toList⟩], []⟩⟩
    "abcde".toList
    ⟨Dictionary.empty,
      ⟨[⟨"abcde".toList⟩, ⟨"abcdd".toList⟩], ['f']⟩,
      ⟨[⟨"abcde".toList⟩, ⟨"abcdd".toList⟩], []⟩⟩
    (by decide)
  exact ⟨h.1, h.2.1⟩

/-! ## Reachable session states and ranking safety (C10) -/

/-- C10: in every reachable session state the answer set is a
sub-collection (a subpermutation) of the guess pool, so whenever
`get_guess` reaches the ranking step (two or more answers) the pool is
non-empty, the sorted pool has a head (`words[0]` is in bounds), and
`get_guess` cannot fail. -/
theorem C10_rank_never_fails :
    ∀ s : State, Reachable s →
      s.valid_words.words.Subperm s.valid_guesses.words ∧
      (2 ≤ s.valid_words.words.length →
        (s.valid_guesses.sort s.valid_words.char_frequency).1.isSome) ∧
      (get_guess s).isSome := by
  have hsortlen : ∀ (d : Dictionary) (freq : CharFrequency),
      ((d.sort freq).1.isSome ↔ d.words ≠ []) := by
    intro d freq
    have hperm := List.perm_insertionSort
      (fun a b => Word.score b freq ≤ Word.score a freq) d.words
    have hiff : List.insertionSort
        (fun a b => Word.score b freq ≤ Word.score a freq) d.words = [] ↔
        d.words = [] := by
      constructor
      · intro h
        have h2 := hperm.symm
        rw [h] at h2
        exact h2.eq_nil
      · intro h
        rw [h]
        simp
    show (List.insertionSort
        (fun a b => Word.score b freq ≤ Word.score a freq)
        d.words).head?.isSome ↔ d.words ≠ []
    rw [List.head?_isSome]
    exact not_congr hiff
  have hsub : ∀ s : State, Reachable s →
      s.valid_words.words.Subperm s.valid_guesses.words := by
    intro s hr
    induction hr with
    | init d => exact List.Subperm.refl _
    | reset_step s c msg s2 _ hres _ =>
      unfold reset at hres
      have hg := get_guess_state hres
      rw [hg.2.1]
      exact ((List.Subperm.refl _).trans hg.2.2.1.symm.subperm)
    | hint_step s guess inp msg s2 _ hres ih =>
      obtain ⟨clues, -, -, hvw, hperm, -⟩ := hint_state hres
      rw [hvw]
      exact ((foldl_filter_words_sublist clues s.valid_words).subperm.trans
        ih).trans hperm.symm.subperm
  intro s hr
  refine ⟨hsub s hr, ?_, ?_⟩
  · intro hlen
    rw [hsortlen]
    intro hnil
    have hle := (hsub s hr).length_le
    rw [hnil] at hle
    simp only [List.length_nil, Nat.le_zero] at hle
    omega
  · cases hvw : s.valid_words.words with
    | nil => unfold get_guess; rw [hvw]; rfl
    | cons w rest =>
      cases rest with
      | nil => unfold get_guess; rw [hvw]; rfl
      | cons w2 rest2 =>
        have hnn : s.valid_guesses.words ≠ [] := by
          have hle := (hsub s hr).length_le
          intro hnil
          rw [hvw, hnil] at hle
          simp at hle
        have hgg : get_guess s =
            match (s.valid_guesses.sort s.valid_words.char_frequency).1 with
            | some w0 => some (w0.word,
                { s with valid_guesses :=
                    (s.valid_guesses.sort s.valid_words.char_frequency).2 })
            | none => none := by
          unfold get_guess
          rw [hvw]
        rw [hgg]
        have hs := (hsortlen s.valid_guesses s.valid_words.char_frequency).2 hnn
        cases hh : (s.valid_guesses.sort s.valid_words.char_frequency).1 with
        | none => rw [hh] at hs; simp at hs
        | some w0 => rfl

/-- Witness for C10 at a concrete reachable state. -/
theorem C10_rank_never_fails_witness :
    ([] : List Word).Subperm [] ∧
    (2 ≤ ([] : List Word).length →
      ((Dictionary.empty :
        Dictionary).sort (Dictionary.empty.char_frequency)).1.isSome) ∧
    (get_guess ⟨Dictionary.empty, Dictionary.empty, Dictionary.empty⟩).isSome :=
  C10_rank_never_fails ⟨Dictionary.empty, Dictionary.empty, Dictionary.empty⟩
    (Reachable.init Dictionary.empty)

/-! ## The feedback codec (C2) -/

lemma mem_dedupConsec : ∀ (l : List Char) (a : Char),
    a ∈ dedupConsec l ↔ a ∈ l
  | [], a => by simp [dedupConsec]
  | [b], a => by simp [dedupConsec]
  | b :: c :: rest, a => by
    have ih := mem_dedupConsec (c :: rest) a
    by_cases hbc : b = c
    · subst hbc
      have he : dedupConsec (b :: b :: rest) = dedupConsec (b :: rest) := by
        simp [dedupConsec]
      rw [he, ih]
      simp only [List.mem_cons]
      tauto
    · have he : dedupConsec (b :: c :: rest) = b :: dedupConsec (c :: rest) := by
        simp [dedupConsec, hbc]
      rw [he]
      simp only [List.mem_cons, ih]

lemma dedupConsec_sorted_nodup : ∀ l : List Char,
    l.Sorted (· ≤ ·) → (dedupConsec l).Nodup
  | [], _ => by simp [dedupConsec]
  | [a], _ => by simp [dedupConsec]
  | a :: b :: rest, h => by
    have htail : (b :: rest).Sorted (· ≤ ·) := h.of_cons
    have ih := dedupConsec_sorted_nodup (b :: rest) htail
    by_cases hab : a = b
    · simpa [dedupConsec, hab] using ih
    · have hle : a ≤ b := List.rel_of_sorted_cons h b (by simp)
      have hnotmem : a ∉ dedupConsec (b :: rest) := by
        intro hmem
        have hmem2 : a ∈ b :: rest := (mem_dedupConsec _ _).1 hmem
        rcases List.mem_cons.1 hmem2 with hba | hrest
        · exact hab hba
        · exact hab (le_antisymm hle (List.rel_of_sorted_cons htail a hrest))
      simp only [dedupConsec, if_neg hab, List.nodup_cons]
      exact ⟨hnotmem, ih⟩

lemma sortChars_sorted (l : List Char) : (sortChars l).Sorted (· ≤ ·) :=
  List.sorted_insertionSort _ _

lemma mem_sortChars (l : List Char) (a : Char) : a ∈ sortChars l ↔ a ∈ l :=
  (List.perm_insertionSort _ _).mem_iff

/-- The distinct letters the codec iterates over are exactly the
letters of the guess, each once. -/
lemma distinct_letters_spec (l : List Char) :
    (dedupConsec (sortChars l)).Nodup ∧
      ∀ a, a ∈ dedupConsec (sortChars l) ↔ a ∈ l := by
  refine ⟨dedupConsec_sorted_nodup _ (sortChars_sorted l), fun a => ?_⟩
  rw [mem_dedupConsec, mem_sortChars]

lemma mem_matchIndices {guess : List Char} {c : Char} {i : Nat} :
    i ∈ matchIndices guess c ↔ i < guess.length ∧ guess.getD i ' ' = c := by
  simp [matchIndices, List.mem_filter, List.mem_range]

/-- `getD` after `set`, when the set index is in bounds. -/
lemma getD_set {α : Type} (l : List α) (i j : Nat) (v d : α)
    (hi : i < l.length) :
    (l.set i v).getD j d = if i = j then v else l.getD j d := by
  rw [List.getD_eq_getD_get?, List.getD_eq_getD_get?,
    List.get?_set_of_lt' v l hi]
  by_cases hij : i = j <;> simp [hij]

lemma foldl_clueStep_length (inp : List Char) :
    ∀ (idxs : List Nat) (acc : List Hint × Nat × Nat × Nat),
      ((idxs.foldl (clueStep inp) acc).1).length = acc.1.length
  | [], _ => rfl
  | idx :: rest, acc => by
    obtain ⟨hints, c1, c2, c3⟩ := acc
    rw [List.foldl_cons, foldl_clueStep_length inp rest]
    simp only [clueStep]
    split_ifs <;> simp

lemma foldl_clueStep_getD (inp : List Char) :
    ∀ (idxs : List Nat) (acc : List Hint × Nat × Nat × Nat) (j : Nat),
      (∀ i ∈ idxs, i < acc.1.length) →
      ((idxs.foldl (clueStep inp) acc).1).getD j Hint.Unset =
        if j ∈ idxs then
          (if inp.getD j ' ' = 'c' then Hint.Yes else Hint.No)
        else acc.1.getD j Hint.Unset
  | [], acc, j, _ => by simp
  | idx :: rest, acc, j, hbound => by
    obtain ⟨hints, c1, c2, c3⟩ := acc
    have hidx : idx < hints.length := hbound idx (by simp)
    have hrest : ∀ i ∈ rest, i < ((clueStep inp (hints, c1, c2, c3) idx).1).length := by
      intro i hi
      have : ((clueStep inp (hints, c1, c2, c3) idx).1).length = hints.length := by
        simp only [clueStep]
        split_ifs <;> simp
      rw [this]
      exact hbound i (by simp [hi])
    rw [List.foldl_cons, foldl_clueStep_getD inp rest _ j hrest]
    have hstep : ((clueStep inp (hints, c1, c2, c3) idx).1).getD j Hint.Unset =
        if idx = j then (if inp.getD idx ' ' = 'c' then Hint.Yes else Hint.No)
        else hints.getD j Hint.Unset := by
      by_cases hij : idx = j
      · subst hij
        simp only [clueStep]
        split_ifs <;>
          · rw [getD_set hints idx idx _ Hint.Unset hidx]
            simp
      · simp only [clueStep]
        split_ifs <;>
          · rw [getD_set hints idx j _ Hint.Unset hidx]
            simp [hij]
    rw [hstep]
    by_cases hji : j = idx
    · subst hji
      by_cases hjr : j ∈ rest <;> simp [hjr, List.mem_cons]
    · by_cases hjr : j ∈ rest <;>
        simp [hjr, hji, List.mem_cons, Ne.symm hji]

lemma foldl_clueStep_counts (inp : List Char) :
    ∀ (idxs : List Nat) (acc : List Hint × Nat × Nat × Nat),
      (idxs.foldl (clueStep inp) acc).2.1 =
        acc.2.1 + (idxs.filter (fun i => inp.getD i ' ' = 'c')).length ∧
      (idxs.foldl (clueStep inp) acc).2.2.1 =
        acc.2.2.1 + (idxs.filter
          (fun i => inp.getD i ' ' ≠ 'c' ∧ inp.getD i ' ' = 'w')).length ∧
      (idxs.foldl (clueStep inp) acc).2.2.2 =
        acc.2.2.2 + (idxs.filter
          (fun i => inp.getD i ' ' ≠ 'c' ∧ inp.getD i ' ' ≠ 'w')).length
  | [], _ => by simp
  | idx :: rest, acc => by
    obtain ⟨hints, c1, c2, c3⟩ := acc
    have ih := foldl_clueStep_counts inp rest (clueStep inp (hints, c1, c2, c3) idx)
    rw [List.foldl_cons]
    refine ⟨?_, ?_, ?_⟩ <;>
      rw [List.filter_cons] <;>
      [rw [ih.1]; rw [ih.2.1]; rw [ih.2.2]] <;>
      simp only [clueStep] <;>
      split_ifs with h1 h2 <;>
      simp_all <;>
      omega

/-- `getD` of a `replicate` at its own element. -/
lemma getD_replicate {α : Type} {n j : Nat} {a : α} :
    (List.replicate n a).getD j a = a := by
  rw [List.getD_eq_getD_get?, List.get?_eq_getElem?, List.getElem?_replicate]
  split <;> simp

/-- `getD` through `map`. -/
lemma getD_map_hint (l : List Hint) (f : Hint → Hint) (j : Nat)
    (hj : j < l.length) :
    (l.map f).getD j Hint.Unset = f (l.getD j Hint.Unset) := by
  rw [List.getD_eq_getElem _ _ (by simpa using hj),
    List.getD_eq_getElem _ _ hj, List.getElem_map]

/-- Full characterization of the clue built for one letter, when the
guess has the real length `WORD_LEN = 5`.  The hint of every position of
the letter follows its feedback code; every other position is `Absent`
when some occurrence was reported fully wrong and
`PresentElsewhereAllowed` otherwise; no `Unset` remains; and `occur`
counts the `'c'` codes plus one for a seen `'w'`. -/
lemma from_input_one_spec (guess inp : List Char) (c : Char)
    (hg : guess.length = 5) :
    (Clue.from_input_one guess inp c).c = c ∧
    (Clue.from_input_one guess inp c).hints.length = 5 ∧
    (∀ i < 5, guess.getD i ' ' = c →
      (Clue.from_input_one guess inp c).hints.getD i Hint.Unset =
        (if inp.getD i ' ' = 'c' then Hint.Yes else Hint.No)) ∧
    (∀ i < 5, guess.getD i ' ' ≠ c →
      (Clue.from_input_one guess inp c).hints.getD i Hint.Unset =
        (if ∃ j ∈ List.range 5, guess.getD j ' ' = c ∧ inp.getD j ' ' ≠ 'c' ∧
            inp.getD j ' ' ≠ 'w' then Hint.No else Hint.Maybe)) ∧
    (∀ i < 5, (Clue.from_input_one guess inp c).hints.getD i Hint.Unset ≠
      Hint.Unset) ∧
    (Clue.from_input_one guess inp c).occur =
      ((List.range 5).filter
        (fun i => guess.getD i ' ' = c ∧ inp.getD i ' ' = 'c')).length +
      (if ∃ j ∈ List.range 5, guess.getD j ' ' = c ∧ inp.getD j ' ' = 'w'
        then 1 else 0) := by
  obtain ⟨⟨hints, correct, wrong_place, wrong⟩, hr⟩ :
      ∃ r, (matchIndices guess c).foldl (clueStep inp)
        (List.replicate WORD_LEN Hint.Unset, 0, 0, 0) = r := ⟨_, rfl⟩
  have hbound : ∀ i ∈ matchIndices guess c,
      i < (List.replicate WORD_LEN Hint.Unset).length := by
    intro i hi
    have h1 := (mem_matchIndices.1 hi).1
    simp only [List.length_replicate, WORD_LEN]
    omega
  have hmem : ∀ j, j ∈ matchIndices guess c ↔ j < 5 ∧ guess.getD j ' ' = c := by
    intro j
    rw [mem_matchIndices, hg]
  have hlen := foldl_clueStep_length inp (matchIndices guess c)
    (List.replicate WORD_LEN Hint.Unset, 0, 0, 0)
  rw [hr] at hlen
  simp only [List.length_replicate, WORD_LEN] at hlen
  have hcnt := foldl_clueStep_counts inp (matchIndices guess c)
    (List.replicate WORD_LEN Hint.Unset, 0, 0, 0)
  rw [hr] at hcnt
  simp only [Nat.zero_add] at hcnt
  have hgetD := fun j => foldl_clueStep_getD inp (matchIndices guess c)
    (List.replicate WORD_LEN Hint.Unset, 0, 0, 0) j hbound
  rw [hr] at hgetD
  dsimp only at hgetD
  have hk : Clue.from_input_one guess inp c =
      { c := c
        occur := correct + (if wrong_place > 0 then 1 else 0)
        hints := hints.map (fun h => if h = Hint.Unset then
          (if wrong > 0 then Hint.No else Hint.Maybe) else h) } := by
    rw [Clue.from_input_one, hr]
  -- the two existential conditions, in terms of the loop counters
  have hwr : 0 < wrong ↔ ∃ j ∈ List.range 5, guess.getD j ' ' = c ∧
      inp.getD j ' ' ≠ 'c' ∧ inp.getD j ' ' ≠ 'w' := by
    rw [hcnt.2.2, List.length_pos_iff_exists_mem]
    constructor
    · rintro ⟨j, hj⟩
      obtain ⟨hj1, hj2⟩ := List.mem_filter.1 hj
      obtain ⟨h5, hgc⟩ := (hmem j).1 hj1
      exact ⟨j, List.mem_range.2 h5, hgc, of_decide_eq_true hj2⟩
    · rintro ⟨j, h5, hgc, hcw⟩
      exact ⟨j, List.mem_filter.2 ⟨(hmem j).2 ⟨List.mem_range.1 h5, hgc⟩,
        decide_eq_true hcw⟩⟩
  have hwp : 0 < wrong_place ↔ ∃ j ∈ List.range 5, guess.getD j ' ' = c ∧
      inp.getD j ' ' = 'w' := by
    rw [hcnt.2.1, List.length_pos_iff_exists_mem]
    constructor
    · rintro ⟨j, hj⟩
      obtain ⟨hj1, hj2⟩ := List.mem_filter.1 hj
      obtain ⟨h5, hgc⟩ := (hmem j).1 hj1
      exact ⟨j, List.mem_range.2 h5, hgc, (of_decide_eq_true hj2).2⟩
    · rintro ⟨j, h5, hgc, hcw⟩
      have hne : inp.getD j ' ' ≠ 'c' := by rw [hcw]; decide
      exact ⟨j, List.mem_filter.2 ⟨(hmem j).2 ⟨List.mem_range.1 h5, hgc⟩,
        decide_eq_true ⟨hne, hcw⟩⟩⟩
  -- the per-position value of the finished hint vector
  have hmain : ∀ i, i < 5 →
      (Clue.from_input_one guess inp c).hints.getD i Hint.Unset =
        if guess.getD i ' ' = c then
          (if inp.getD i ' ' = 'c' then Hint.Yes else Hint.No)
        else (if wrong > 0 then Hint.No else Hint.Maybe) := by
    intro i hi
    rw [hk]
    dsimp only
    have hmap := getD_map_hint hints
      (fun h => if h = Hint.Unset then
        (if wrong > 0 then Hint.No else Hint.Maybe) else h) i (by omega)
    rw [hmap, hgetD i, getD_replicate]
    by_cases hgc : guess.getD i ' ' = c
    · rw [if_pos ((hmem i).2 ⟨hi, hgc⟩), if_pos hgc]
      by_cases hc2 : inp.getD i ' ' = 'c'
      · rw [if_pos hc2]
        rfl
      · rw [if_neg hc2]
        rfl
    · rw [if_neg (fun hmemi => hgc ((hmem i).1 hmemi).2), if_neg hgc]
      rfl
  refine ⟨by rw [hk], by rw [hk]; simpa using hlen, ?_, ?_, ?_, ?_⟩
  · intro i hi hgc
    rw [hmain i hi, if_pos hgc]
  · intro i hi hgc
    rw [hmain i hi, if_neg hgc]
    exact if_congr hwr rfl rfl
  · intro i hi
    rw [hmain i hi]
    split_ifs <;> simp
  · rw [hk]
    dsimp only
    have hcorrect : (matchIndices guess c).filter
        (fun i => decide (inp.getD i ' ' = 'c')) =
        (List.range 5).filter
          (fun i => decide (guess.getD i ' ' = c ∧ inp.getD i ' ' = 'c')) := by
      rw [matchIndices, hg, List.filter_filter]
      apply List.filter_congr
      intro a _
      rw [Bool.decide_and]
      exact Bool.and_comm _ _
    rw [hcnt.1, hcorrect, if_congr hwp rfl rfl]

/-- C2: for length-5 inputs the codec emits exactly one clue per
distinct letter of the guess (no duplicates, covering exactly the
guess's letters); in each clue, positions holding the letter get `Match`
for code `'c'` and `Absent` for any other code; positions not holding
the letter get `Absent` when some occurrence had a non-`'c'`/`'w'` code
and `PresentElsewhereAllowed` otherwise, so no `Unresolved` verdict
remains; and `min_occurrences` is the count of `'c'` codes plus one if a
`'w'` code was seen.  For guess `"crane"`, feedback `"wacwa"`, the clue
for `'c'` is `Absent` at position 0, `PresentElsewhereAllowed`
elsewhere, with `min_occurrences` 1. -/
theorem C2_codec_spec :
    (∀ (guess inp : List Char), guess.length = 5 →
      ((Clue.from_input guess inp).map Clue.c).Nodup ∧
      (∀ a, a ∈ (Clue.from_input guess inp).map Clue.c ↔ a ∈ guess) ∧
      (∀ k ∈ Clue.from_input guess inp,
        k.hints.length = 5 ∧
        (∀ i < 5, guess.getD i ' ' = k.c →
          k.hints.getD i Hint.Unset =
            (if inp.getD i ' ' = 'c' then Hint.Yes else Hint.No)) ∧
        (∀ i < 5, guess.getD i ' ' ≠ k.c →
          k.hints.getD i Hint.Unset =
            (if ∃ j ∈ List.range 5, guess.getD j ' ' = k.c ∧
                inp.getD j ' ' ≠ 'c' ∧ inp.getD j ' ' ≠ 'w'
              then Hint.No else Hint.Maybe)) ∧
        (∀ i < 5, k.hints.getD i Hint.Unset ≠ Hint.Unset) ∧
        k.occur = ((List.range 5).filter
            (fun i => guess.getD i ' ' = k.c ∧ inp.getD i ' ' = 'c')).length +
          (if ∃ j ∈ List.range 5, guess.getD j ' ' = k.c ∧ inp.getD j ' ' = 'w'
            then 1 else 0))) ∧
    Clue.from_input_one "crane".toList "wacwa".toList 'c' =
      ⟨'c', 1, [Hint.No, Hint.Maybe, Hint.Maybe, Hint.Maybe, Hint.Maybe]⟩ ∧
    Clue.from_input_one "crane".toList "wacwa".toList 'c' ∈
      Clue.from_input "crane".toList "wacwa".toList := by
  refine ⟨?_, by decide, by decide⟩
  intro guess inp hg
  have hmapc : (Clue.from_input guess inp).map Clue.c =
      dedupConsec (sortChars guess) := by
    rw [Clue.from_input, List.map_map]
    have hpt : ∀ a ∈ dedupConsec (sortChars guess),
        (Clue.c ∘ Clue.from_input_one guess inp) a = id a := by
      intro a _
      exact (from_input_one_spec guess inp a hg).1
    rw [List.map_congr_left hpt, List.map_id]
  obtain ⟨hnodup, hmem⟩ := distinct_letters_spec guess
  refine ⟨by rw [hmapc]; exact hnodup,
    fun a => by rw [hmapc]; exact hmem a, ?_⟩
  intro k hk
  rw [Clue.from_input] at hk
  obtain ⟨c, hc, hkeq⟩ := List.mem_map.1 hk
  subst hkeq
  obtain ⟨h1, h2, h3, h4, h5, h6⟩ := from_input_one_spec guess inp c hg
  rw [h1]
  exact ⟨h2, h3, h4, h5, h6⟩

/-- Witness for C2 at guess `"crane"`, feedback `"wacwa"`. -/
theorem C2_codec_spec_witness :
    ((Clue.from_input "crane".toList "wacwa".toList).map Clue.c).Nodup ∧
    (∀ a, a ∈ (Clue.from_input "crane".toList "wacwa".toList).map Clue.c ↔
      a ∈ "crane".toList) :=
  ⟨(C2_codec_spec.1 "crane".toList "wacwa".toList (by decide)).1,
    (C2_codec_spec.1 "crane".toList "wacwa".toList (by decide)).2.1⟩

/-! ## Honest feedback and the self-consistency property (C3) -/

lemma honestFeedback_getD (T guess : List Char) (i : Nat)
    (hi : i < guess.length) :
    (honestFeedback T guess).getD i ' ' =
      (if guess.getD i ' ' = T.getD i ' ' then 'c'
        else if guess.getD i ' ' ∈ T then 'w' else 'x') := by
  unfold honestFeedback
  rw [List.getD_eq_getElem _ _ (by simpa using hi)]
  rw [List.getElem_map]
  simp

/-- An in-range `getD` is a member of the list. -/
lemma getD_mem {l : List Char} {i : Nat} (hi : i < l.length) :
    l.getD i ' ' ∈ l := by
  rw [List.getD_eq_getElem _ _ hi]
  exact List.getElem_mem hi

/-- A filter of `range n` whose sole survivor is `i0` has length one. -/
lemma length_filter_eq_one_of_unique {p : Nat → Bool} {n : Nat}
    (i0 : Nat) (hmem : i0 ∈ (List.range n).filter p)
    (huniq : ∀ j ∈ (List.range n).filter p, j = i0) :
    ((List.range n).filter p).length = 1 := by
  have hnd : ((List.range n).filter p).Nodup :=
    List.Nodup.filter p (List.nodup_range n)
  cases hfil : (List.range n).filter p with
  | nil => rw [hfil] at hmem; cases hmem
  | cons x rest =>
    rw [hfil] at hnd hmem huniq
    have hx : x = i0 := huniq x (by simp)
    cases rest with
    | nil => rfl
    | cons y r2 =>
      have hy : y = i0 := huniq y (by simp)
      exact absurd (hx.trans hy.symm)
        (fun hxy => (List.nodup_cons.1 hnd).1 (by rw [hxy]; simp))

/-- The central honesty lemma: a target of length 5 satisfies the clue
the codec builds for any letter from a duplicate-free length-5 guess
with per-position honest feedback. -/
lemma honest_satisfies (T guess : List Char) (hT : T.length = 5)
    (hg : guess.length = 5) (hnd : guess.Nodup) (c : Char) :
    Word.has ⟨T⟩
      (Clue.from_input_one guess (honestFeedback T guess) c) = true := by
  obtain ⟨hc, hlen, hmatch, hother, -, hocc⟩ :=
    from_input_one_spec guess (honestFeedback T guess) c hg
  rw [has_eq_true_iff _ _ hT hlen, hc]
  dsimp only
  have hfb : ∀ i, i < 5 → (honestFeedback T guess).getD i ' ' =
      (if guess.getD i ' ' = T.getD i ' ' then 'c'
        else if guess.getD i ' ' ∈ T then 'w' else 'x') := by
    intro i hi
    exact honestFeedback_getD T guess i (by omega)
  by_cases hcg : c ∈ guess
  · -- the letter occurs in the guess, at a unique position i0
    obtain ⟨i0, hi0g, hgi0'⟩ := List.mem_iff_getElem.1 hcg
    have hi0 : i0 < 5 := by omega
    have hgi0 : guess.getD i0 ' ' = c := by
      rw [List.getD_eq_getElem _ _ hi0g]
      exact hgi0'
    have huniq : ∀ j, j < 5 → guess.getD j ' ' = c → j = i0 := by
      intro j hj hgj
      have hjg : j < guess.length := by omega
      rw [List.getD_eq_getElem _ _ hjg] at hgj
      rw [List.getD_eq_getElem _ _ hi0g] at hgi0
      exact (List.Nodup.getElem_inj_iff hnd).1 (hgj.trans hgi0.symm)
    have hexiff : ∀ Q : Nat → Prop,
        ((∃ j ∈ List.range 5, guess.getD j ' ' = c ∧ Q j) ↔ Q i0) := by
      intro Q
      constructor
      · rintro ⟨j, hj, hgc2, hq⟩
        rwa [huniq j (List.mem_range.1 hj) hgc2] at hq
      · intro hq
        exact ⟨i0, List.mem_range.2 hi0, hgi0, hq⟩
    have hfbi0 : (honestFeedback T guess).getD i0 ' ' =
        (if c = T.getD i0 ' ' then 'c'
          else if c ∈ T then 'w' else 'x') := by
      rw [hfb i0 hi0, hgi0]
    have hTmem : ∀ i, i < 5 → T.getD i ' ' ∈ T := fun i hi =>
      getD_mem (by omega)
    have hQw := hexiff
      (fun j => (honestFeedback T guess).getD j ' ' = 'w')
    have hQx := hexiff
      (fun j => (honestFeedback T guess).getD j ' ' ≠ 'c' ∧
        (honestFeedback T guess).getD j ' ' ≠ 'w')
    -- the three honest-feedback shapes at i0
    by_cases hA : T.getD i0 ' ' = c
    · -- exact match: code 'c' at i0
      have hcode : (honestFeedback T guess).getD i0 ' ' = 'c' := by
        rw [hfbi0, if_pos hA.symm]
      constructor
      · intro i hi
        by_cases hgi : guess.getD i ' ' = c
        · have hii0 := huniq i hi hgi
          subst hii0
          rw [hmatch i hi hgi, if_pos hcode]
          refine ⟨fun _ => hA, fun hno => nomatch hno⟩
        · rw [hother i hi hgi, if_neg ((not_congr hQx).2
            (fun hq => hq.1 hcode))]
          refine ⟨(fun hyes => nomatch hyes), (fun hno => nomatch hno)⟩
      · rw [hocc]
        have hF : ((List.range 5).filter
            (fun i => decide (guess.getD i ' ' = c ∧
              (honestFeedback T guess).getD i ' ' = 'c'))).length = 1 := by
          apply length_filter_eq_one_of_unique i0
          · exact List.mem_filter.2 ⟨List.mem_range.2 hi0,
              decide_eq_true ⟨hgi0, hcode⟩⟩
          · intro j hj
            obtain ⟨hj1, hj2⟩ := List.mem_filter.1 hj
            exact huniq j (List.mem_range.1 hj1) (of_decide_eq_true hj2).1
        have hGw : ¬∃ j ∈ List.range 5, guess.getD j ' ' = c ∧
            (honestFeedback T guess).getD j ' ' = 'w' :=
          (not_congr hQw).2 (by rw [hcode]; decide)
        rw [hF, if_neg hGw]
        have hcT : c ∈ T := hA ▸ hTmem i0 hi0
        have := List.count_pos_iff.2 hcT
        omega
    · by_cases hB : c ∈ T
      · -- present elsewhere: code 'w' at i0
        have hcode : (honestFeedback T guess).getD i0 ' ' = 'w' := by
          rw [hfbi0, if_neg (fun h => hA h.symm), if_pos hB]
        constructor
        · intro i hi
          by_cases hgi : guess.getD i ' ' = c
          · have hii0 := huniq i hi hgi
            subst hii0
            rw [hmatch i hi hgi, if_neg (by rw [hcode]; decide)]
            refine ⟨(fun hyes => nomatch hyes), (fun _ => hA)⟩
          · rw [hother i hi hgi, if_neg ((not_congr hQx).2
              (fun hq => hq.2 hcode))]
            refine ⟨(fun hyes => nomatch hyes), (fun hno => nomatch hno)⟩
        · rw [hocc]
          have hF : ((List.range 5).filter
              (fun i => decide (guess.getD i ' ' = c ∧
                (honestFeedback T guess).getD i ' ' = 'c'))).length = 0 := by
            rw [List.length_eq_zero, List.filter_eq_nil_iff]
            intro j hj hpj
            obtain ⟨hgj, hcj⟩ := of_decide_eq_true hpj
            rw [huniq j (List.mem_range.1 hj) hgj, hcode] at hcj
            cases hcj
          rw [hF, if_pos (hQw.2 hcode)]
          have := List.count_pos_iff.2 hB
          omega
      · -- absent: code 'x' at i0
        have hcode : (honestFeedback T guess).getD i0 ' ' = 'x' := by
          rw [hfbi0, if_neg (fun h => hA h.symm), if_neg hB]
        have hTne : ∀ i, i < 5 → T.getD i ' ' ≠ c := by
          intro i hi habs
          exact hB (habs ▸ hTmem i hi)
        constructor
        · intro i hi
          by_cases hgi : guess.getD i ' ' = c
          · have hii0 := huniq i hi hgi
            subst hii0
            rw [hmatch i hi hgi, if_neg (by rw [hcode]; decide)]
            refine ⟨(fun hyes => nomatch hyes), (fun _ => hTne i hi)⟩
          · rw [hother i hi hgi, if_pos (hQx.2
              (by rw [hcode]; exact ⟨by decide, by decide⟩))]
            refine ⟨(fun hyes => nomatch hyes), (fun _ => hTne i hi)⟩
        · rw [hocc]
          have hF : ((List.range 5).filter
              (fun i => decide (guess.getD i ' ' = c ∧
                (honestFeedback T guess).getD i ' ' = 'c'))).length = 0 := by
            rw [List.length_eq_zero, List.filter_eq_nil_iff]
            intro j hj hpj
            obtain ⟨hgj, hcj⟩ := of_decide_eq_true hpj
            rw [huniq j (List.mem_range.1 hj) hgj, hcode] at hcj
            cases hcj
          have hGw : ¬∃ j ∈ List.range 5, guess.getD j ' ' = c ∧
              (honestFeedback T guess).getD j ' ' = 'w' :=
            (not_congr hQw).2 (by rw [hcode]; decide)
          rw [hF, if_neg hGw]
          omega
  · -- the letter does not occur in the guess: the clue is vacuous
    have hnog : ∀ i, i < 5 → guess.getD i ' ' ≠ c := by
      intro i hi habs
      exact hcg (habs ▸ @getD_mem guess i (by omega))
    have hnoex : ∀ Q : Nat → Prop,
        ¬∃ j ∈ List.range 5, guess.getD j ' ' = c ∧ Q j := by
      rintro Q ⟨j, hj, hgc2, -⟩
      exact hnog j (List.mem_range.1 hj) hgc2
    constructor
    · intro i hi
      rw [hother i hi (hnog i hi), if_neg (hnoex
        (fun j => (honestFeedback T guess).getD j ' ' ≠ 'c' ∧
          (honestFeedback T guess).getD j ' ' ≠ 'w'))]
      refine ⟨(fun hyes => nomatch hyes), (fun hno => nomatch hno)⟩
    · rw [hocc]
      have hF : ((List.range 5).filter
          (fun i => decide (guess.getD i ' ' = c ∧
            (honestFeedback T guess).getD i ' ' = 'c'))).length = 0 := by
        rw [List.length_eq_zero]
        rw [List.filter_eq_nil_iff]
        intro j hj hpj
        exact hnog j (List.mem_range.1 hj) (of_decide_eq_true hpj).1
      rw [hF, if_neg (hnoex
        (fun j => (honestFeedback T guess).getD j ' ' = 'w'))]
      omega

/-- A word satisfying every clue survives the fold of filters. -/
lemma mem_foldl_filter {w : Word} :
    ∀ (clues : List Clue) (d : Dictionary),
      w ∈ d.words → (∀ k ∈ clues, w.has k = true) →
      w ∈ (clues.foldl Dictionary.filter d).words
  | [], _, hw, _ => hw
  | k :: rest, d, hw, hall => by
    rw [List.foldl_cons]
    apply mem_foldl_filter rest
    · exact List.mem_filter.2 ⟨hw, hall k (by simp)⟩
    · intro k2 hk2
      exact hall k2 (by simp [hk2])

/-- Counterexample to C3 as stated: with the claim's per-position honest
feedback, a guess with a repeated letter over-counts.  Guess `"geese"`
against target `"crane"` honestly yields `"xwwxc"`; the clue for `'e'`
then has one `'c'` report and a `'w'` report, so `min_occurrences = 2`,
but `"crane"` holds a single `'e'` — the target itself fails the clue,
and one filter step eliminates it from the answers. -/
theorem C3_counterexample :
    honestFeedback "crane".toList "geese".toList = "xwwxc".toList ∧
    (Clue.from_input_one "geese".toList "xwwxc".toList 'e').occur = 2 ∧
    Word.has ⟨"crane".toList⟩
      (Clue.from_input_one "geese".toList "xwwxc".toList 'e') = false ∧
    (honestProcess "crane".toList ["geese".toList]
      ⟨[⟨"crane".toList⟩], []⟩).words = [] :=
  ⟨by decide, by decide, by decide, by decide⟩

/-- C3, amended: restricted to guesses without repeated letters (where
the per-position honest feedback cannot over-count a letter), the target
satisfies every clue the codec produces, so it survives every filter
step of the honest process; in particular, whenever the answers shrink
to a single word, that word is the target. -/
theorem C3_honest_target_survives :
    ∀ (T : List Char), T.length = 5 →
      ∀ (guesses : List (List Char)),
        (∀ g ∈ guesses, g.length = 5 ∧ g.Nodup) →
        ∀ d : Dictionary, (⟨T⟩ : Word) ∈ d.words →
          (⟨T⟩ : Word) ∈ (honestProcess T guesses d).words ∧
          ((honestProcess T guesses d).words.length = 1 →
            (honestProcess T guesses d).words = [⟨T⟩]) := by
  intro T hT guesses hgs
  have hmem : ∀ (gs : List (List Char)), (∀ g ∈ gs, g.length = 5 ∧ g.Nodup) →
      ∀ d : Dictionary, (⟨T⟩ : Word) ∈ d.words →
        (⟨T⟩ : Word) ∈ (honestProcess T gs d).words := by
    intro gs
    induction gs with
    | nil => intro _ d hd; exact hd
    | cons g rest ih =>
      intro hall d hd
      rw [honestProcess, List.foldl_cons]
      apply ih (fun g2 hg2 => hall g2 (by simp [hg2]))
      apply mem_foldl_filter _ _ hd
      intro k hk
      rw [Clue.from_input] at hk
      obtain ⟨c, -, hkeq⟩ := List.mem_map.1 hk
      subst hkeq
      exact honest_satisfies T g hT (hall g (by simp)).1 (hall g (by simp)).2 c
  intro d hd
  refine ⟨hmem guesses hgs d hd, ?_⟩
  intro hone
  obtain ⟨a, ha⟩ := List.length_eq_one.1 hone
  have hTmem := hmem guesses hgs d hd
  rw [ha] at hTmem ⊢
  rw [← List.mem_singleton.1 hTmem]

/-- Witness for the amended C3: target `"crane"`, a single honest guess
`"slate"`, answers seeded with the target. -/
theorem C3_honest_target_survives_witness :
    (⟨"crane".toList⟩ : Word) ∈
      (honestProcess "crane".toList ["slate".toList]
        ⟨[⟨"crane".toList⟩], []⟩).words ∧
    ((honestProcess "crane".toList ["slate".toList]
        ⟨[⟨"crane".toList⟩], []⟩).words.length = 1 →
      (honestProcess "crane".toList ["slate".toList]
        ⟨[⟨"crane".toList⟩], []⟩).words = [⟨"crane".toList⟩]) :=
  C3_honest_target_survives "crane".toList (by decide) ["slate".toList]
    (by decide) ⟨[⟨"crane".toList⟩], []⟩ (by decide)

/-! ## Length handling of the `hint` handler (C8) -/

lemma clueStep_preserves_length (inp : List Char)
    (acc : List Hint × Nat × Nat × Nat) (idx : Nat) :
    ((clueStep inp acc idx).1).length = acc.1.length := by
  obtain ⟨hints, c1, c2, c3⟩ := acc
  simp only [clueStep]
  split_ifs <;> simp

/-- An in-bounds index makes the checked loop step succeed with the
total step's value. -/
lemma clueStepChecked_eq_some (inp : List Char)
    (acc : List Hint × Nat × Nat × Nat) (idx : Nat)
    (h1 : idx < inp.length) (h2 : idx < acc.1.length) :
    clueStepChecked inp acc idx = some (clueStep inp acc idx) := by
  obtain ⟨hints, c1, c2, c3⟩ := acc
  have hgd : inp.getD idx ' ' = inp[idx] := List.getD_eq_getElem _ _ h1
  simp only [clueStepChecked, clueStep, List.get?_eq_getElem?,
    List.getElem?_eq_getElem h1, hgd, if_pos (h2 : idx < hints.length)]
  split_ifs <;> rfl

lemma foldlM_clueStepChecked_some (inp : List Char) :
    ∀ (idxs : List Nat) (acc : List Hint × Nat × Nat × Nat),
      (∀ i ∈ idxs, i < inp.length ∧ i < acc.1.length) →
      idxs.foldlM (clueStepChecked inp) acc =
        some (idxs.foldl (clueStep inp) acc)
  | [], _, _ => rfl
  | idx :: rest, acc, hall => by
    obtain ⟨h1, h2⟩ := hall idx (by simp)
    rw [List.foldlM_cons, clueStepChecked_eq_some inp acc idx h1 h2]
    show (rest.foldlM (clueStepChecked inp) (clueStep inp acc idx)) =
      some (rest.foldl (clueStep inp) (clueStep inp acc idx))
    exact foldlM_clueStepChecked_some inp rest _ (fun i hi =>
      ⟨(hall i (by simp [hi])).1,
        by rw [clueStep_preserves_length]; exact (hall i (by simp [hi])).2⟩)

lemma foldlM_clueStepChecked_none (inp : List Char) :
    ∀ (idxs : List Nat) (acc : List Hint × Nat × Nat × Nat),
      acc.1.length = 5 →
      (∃ i ∈ idxs, inp.length ≤ i ∨ 5 ≤ i) →
      idxs.foldlM (clueStepChecked inp) acc = none
  | [], _, _, hex => by simp at hex
  | idx :: rest, acc, hlen5, hex => by
    obtain ⟨hints, c1, c2, c3⟩ := acc
    dsimp only at hlen5
    rw [List.foldlM_cons]
    by_cases hbad : inp.length ≤ idx ∨ 5 ≤ idx
    · have hstep : clueStepChecked inp (hints, c1, c2, c3) idx = none := by
        rcases hbad with hb | hb
        · simp only [clueStepChecked, List.get?_eq_getElem?,
            List.getElem?_eq_none hb]
        · cases hg : inp.get? idx with
          | none => simp only [clueStepChecked]; rw [hg]
          | some ic =>
            simp only [clueStepChecked]
            rw [hg]
            dsimp only
            rw [if_neg (by omega)]
      rw [hstep]
      rfl
    · push_neg at hbad
      rw [clueStepChecked_eq_some inp (hints, c1, c2, c3) idx hbad.1
        (by dsimp only; omega)]
      show (rest.foldlM (clueStepChecked inp)
        (clueStep inp (hints, c1, c2, c3) idx)) = none
      apply foldlM_clueStepChecked_none inp rest _
        (by rw [clueStep_preserves_length]; exact hlen5)
      obtain ⟨i, hi, hibad⟩ := hex
      rcases List.mem_cons.1 hi with rfl | hi2
      · exact absurd hibad (by omega)
      · exact ⟨i, hi2, hibad⟩

lemma from_input_one_checked_eq_some (guess inp : List Char) (c : Char)
    (hle : guess.length ≤ inp.length) (h5 : guess.length ≤ 5) :
    Clue.from_input_one? guess inp c =
      some (Clue.from_input_one guess inp c) := by
  unfold Clue.from_input_one? Clue.from_input_one
  rw [foldlM_clueStepChecked_some inp (matchIndices guess c) _
    (fun i hi => by
      have hlt := (mem_matchIndices.1 hi).1
      exact ⟨by omega, by simp only [List.length_replicate, WORD_LEN]; omega⟩)]

lemma from_input_one_checked_eq_none (guess inp : List Char) (c : Char)
    (i : Nat) (hi : i ∈ matchIndices guess c)
    (hbad : inp.length ≤ i ∨ 5 ≤ i) :
    Clue.from_input_one? guess inp c = none := by
  unfold Clue.from_input_one?
  rw [foldlM_clueStepChecked_none inp _ _
    (by simp [WORD_LEN]) ⟨i, hi, hbad⟩]

lemma mapM_eq_some_map {α β : Type} (f : α → Option β) (g : α → β) :
    ∀ l : List α, (∀ a ∈ l, f a = some (g a)) →
      l.mapM f = some (l.map g)
  | [], _ => rfl
  | a :: l, hall => by
    rw [List.mapM_cons, hall a (by simp),
      mapM_eq_some_map f g l (fun x hx => hall x (by simp [hx]))]
    rfl

lemma mapM_eq_none {α β : Type} (f : α → Option β) (a : α) :
    ∀ l : List α, a ∈ l → f a = none → l.mapM f = none
  | [], h, _ => by cases h
  | b :: l, hmem, hfa => by
    rw [List.mapM_cons]
    rcases List.mem_cons.1 hmem with rfl | hmem2
    · rw [hfa]
      rfl
    · cases hfb : f b with
      | none => rfl
      | some v =>
        rw [mapM_eq_none f a l hmem2 hfa]
        rfl

/-- A call with in-bounds indexing succeeds: the checked codec agrees
with the total one, with no length validation whatsoever. -/
lemma from_input_checked_eq_some (guess inp : List Char)
    (hle : guess.length ≤ inp.length) (h5 : guess.length ≤ 5) :
    Clue.from_input? guess inp = some (Clue.from_input guess inp) := by
  unfold Clue.from_input? Clue.from_input
  exact mapM_eq_some_map _ _ _
    (fun c _ => from_input_one_checked_eq_some guess inp c hle h5)

/-- When the guess is longer than the feedback or than `WORD_LEN`, the
codec's indexing panics (reaches an out-of-range index). -/
lemma from_input_checked_eq_none (guess inp : List Char)
    (hbad : inp.length < guess.length ∨ 5 < guess.length) :
    Clue.from_input? guess inp = none := by
  have hne : guess ≠ [] := by
    intro h
    rw [h] at hbad
    simp at hbad
  have hlenpos : 0 < guess.length := List.length_pos.2 hne
  have hi0lt : guess.length - 1 < guess.length := by omega
  have hmemi : guess.length - 1 ∈
      matchIndices guess (guess.getD (guess.length - 1) ' ') :=
    mem_matchIndices.2 ⟨hi0lt, rfl⟩
  have hc0mem : guess.getD (guess.length - 1) ' ' ∈
      dedupConsec (sortChars guess) :=
    ((distinct_letters_spec guess).2 _).2 (getD_mem hi0lt)
  unfold Clue.from_input?
  exact mapM_eq_none _ _ _ hc0mem
    (from_input_one_checked_eq_none guess inp _ _ hmemi (by omega))

/-- Counterexample to C8 as stated: the `hint` handler performs no
length validation at all.  A call whose guess and feedback both have
length 3 (≠ `WORD_LEN`) is not rejected: it succeeds and filters the
answers, here all the way to empty — the session state is mutated, and
no `InputLengthMismatch` error exists anywhere in the code. -/
theorem C8_counterexample :
    hint "eee".toList "xxx".toList
        ⟨Dictionary.empty, ⟨[⟨"crane".toList⟩], []⟩,
          ⟨[⟨"crane".toList⟩], []⟩⟩ =
      some (noWordsMsg,
        ⟨Dictionary.empty, ⟨[], ['e']⟩, ⟨[⟨"crane".toList⟩], []⟩⟩) ∧
    "eee".toList.length ≠ 5 ∧ "xxx".toList.length ≠ 5 ∧
    (⟨[], ['e']⟩ : Dictionary) ≠ ⟨[⟨"crane".toList⟩], []⟩ :=
  ⟨by decide, by decide, by decide, by decide⟩

/-- C8, amended: `submit_feedback` has no `InputLengthMismatch`
validation.  Exactly the calls whose guess is longer than the feedback
string or longer than `WORD_LEN` abort, by an out-of-bounds indexing
panic inside clue construction — before any filtering, so no state is
produced; every other call, including equal lengths different from
`WORD_LEN`, proceeds as if the lengths were valid. -/
theorem C8_no_length_validation :
    (∀ guess inp : List Char,
      (Clue.from_input? guess inp = none ↔
        inp.length < guess.length ∨ 5 < guess.length)) ∧
    (∀ (guess inp : List Char) (s : State),
      Clue.from_input? guess inp = none → hint guess inp s = none) ∧
    (∀ guess inp : List Char, guess.length ≤ inp.length →
      guess.length ≤ 5 →
      Clue.from_input? guess inp = some (Clue.from_input guess inp)) := by
  refine ⟨?_, ?_, fun g i h1 h2 => from_input_checked_eq_some g i h1 h2⟩
  · intro guess inp
    constructor
    · intro hnone
      by_contra hcon
      push_neg at hcon
      rw [from_input_checked_eq_some guess inp (by omega) (by omega)]
        at hnone
      cases hnone
    · exact from_input_checked_eq_none guess inp
  · intro guess inp s h
    unfold hint
    rw [h]

/-- Witness for the amended C8: a length-3 call is processed; a
length-6 call panics. -/
theorem C8_no_length_validation_witness :
    Clue.from_input? "abc".toList "abc".toList =
      some (Clue.from_input "abc".toList "abc".toList) ∧
    hint "abcdef".toList "abcdef".toList
      ⟨Dictionary.empty, Dictionary.empty, Dictionary.empty⟩ = none :=
  ⟨C8_no_length_validation.2.2 "abc".toList "abc".toList
      (by decide) (by decide),
    C8_no_length_validation.2.1 "abcdef".toList "abcdef".toList
      ⟨Dictionary.empty, Dictionary.empty, Dictionary.empty⟩
      ((C8_no_length_validation.1 "abcdef".toList "abcdef".toList).2
        (by decide))⟩

/-! ## The frequency table and resolved letters (C5) -/

lemma cfLookup_mem : ∀ (m : CharFrequency) (c : Char) (f : List Nat),
    cfLookup m c = some f → (c, f) ∈ m
  | [], _, _, h => nomatch h
  | (c1, v1) :: rest, c, f, h => by
    simp only [cfLookup] at h
    by_cases hc : c1 = c
    · rw [if_pos hc] at h
      injection h with h2
      subst hc
      subst h2
      simp
    · rw [if_neg hc] at h
      exact List.mem_cons_of_mem _ (cfLookup_mem rest c f h)

lemma cfLookup_update_self : ∀ (m : CharFrequency) (c : Char)
    (v f : List Nat), cfLookup m c = some f →
    cfLookup (cfUpdate m c v) c = some v
  | [], _, _, _, h => nomatch h
  | (c1, v1) :: rest, c, v, f, h => by
    simp only [cfLookup] at h
    simp only [cfUpdate]
    by_cases hc : c1 = c
    · rw [if_pos hc]
      simp only [cfLookup]
      rw [if_pos hc]
    · rw [if_neg hc]
      simp only [cfLookup]
      rw [if_neg hc]
      exact cfLookup_update_self rest c v f (by rwa [if_neg hc] at h)

lemma cfLookup_update_ne : ∀ (m : CharFrequency) (c x : Char)
    (v : List Nat), x ≠ c → cfLookup (cfUpdate m c v) x = cfLookup m x
  | [], _, _, _, _ => rfl
  | (c1, v1) :: rest, c, x, v, hne => by
    simp only [cfUpdate]
    by_cases hc : c1 = c
    · rw [if_pos hc]
      simp only [cfLookup]
      rw [if_neg (by rw [hc]; exact fun h => hne h.symm),
        if_neg (by rw [hc]; exact fun h => hne h.symm)]
    · rw [if_neg hc]
      simp only [cfLookup]
      by_cases hx : c1 = x
      · rw [if_pos hx, if_pos hx]
      · rw [if_neg hx, if_neg hx]
        exact cfLookup_update_ne rest c x v hne

lemma cfLookup_append_none : ∀ (m m2 : CharFrequency) (x : Char),
    cfLookup m x = none → cfLookup (m ++ m2) x = cfLookup m2 x
  | [], _, _, _ => rfl
  | (c1, v1) :: rest, m2, x, h => by
    simp only [cfLookup] at h ⊢
    by_cases hx : c1 = x
    · rw [if_pos hx] at h
      cases h
    · rw [if_neg hx] at h ⊢
      exact cfLookup_append_none rest m2 x h

lemma cfLookup_append_some : ∀ (m m2 : CharFrequency) (x : Char)
    (f : List Nat), cfLookup m x = some f →
    cfLookup (m ++ m2) x = some f
  | [], _, _, _, h => nomatch h
  | (c1, v1) :: rest, m2, x, f, h => by
    simp only [cfLookup] at h ⊢
    by_cases hx : c1 = x
    · rwa [if_pos hx] at h ⊢
    · rw [if_neg hx] at h ⊢
      exact cfLookup_append_some rest m2 x f h

lemma mem_cfUpdate : ∀ (m : CharFrequency) (c : Char) (v : List Nat)
    (p : Char × List Nat), p ∈ cfUpdate m c v → p ∈ m ∨ p = (c, v)
  | [], _, _, _, h => Or.inl h
  | (c1, v1) :: rest, c, v, p, h => by
    simp only [cfUpdate] at h
    by_cases hc : c1 = c
    · rw [if_pos hc] at h
      rcases List.mem_cons.1 h with rfl | h2
      · exact Or.inr (by rw [hc])
      · exact Or.inl (List.mem_cons_of_mem _ h2)
    · rw [if_neg hc] at h
      rcases List.mem_cons.1 h with rfl | h2
      · exact Or.inl (by simp)
      · rcases mem_cfUpdate rest c v p h2 with h3 | h3
        · exact Or.inl (List.mem_cons_of_mem _ h3)
        · exact Or.inr h3

lemma cfWF_update {m : CharFrequency} {c : Char} {v : List Nat}
    (hv : v.length = 5) (h : cfWF m) : cfWF (cfUpdate m c v) := by
  intro p hp
  rcases mem_cfUpdate m c v p hp with h2 | h2
  · exact h p h2
  · rw [h2]
    exact hv

lemma cfWF_incr {m : CharFrequency} (c : Char) (i : Nat)
    (h : cfWF m) : cfWF (cfIncr m c i) := by
  unfold cfIncr
  cases hl : cfLookup m c with
  | some f =>
    have hflen : f.length = 5 := h (c, f) (cfLookup_mem m c f hl)
    exact cfWF_update (by simp [hflen]) h
  | none =>
    intro p hp
    rcases List.mem_append.1 hp with h2 | h2
    · exact h p h2
    · rw [List.mem_singleton.1 h2]
      simp [WORD_LEN]

lemma freqAt_of_lookup_none {m : CharFrequency} {x : Char}
    (h : cfLookup m x = none) (j : Nat) : freqAt m x j = 0 := by
  rw [freqAt, h]
  simp only [Option.getD_none]
  exact getD_replicate

/-- One cell increment: exactly the `(c, i)` cell grows by one. -/
lemma freqAt_incr (m : CharFrequency) (c : Char) (i : Nat) (x : Char)
    (j : Nat) (hwf : cfWF m) (hi : i < 5) (hj : j < 5) :
    freqAt (cfIncr m c i) x j =
      freqAt m x j + (if x = c ∧ j = i then 1 else 0) := by
  unfold cfIncr
  cases hl : cfLookup m c with
  | some f =>
    have hflen : f.length = 5 := hwf (c, f) (cfLookup_mem m c f hl)
    by_cases hx : x = c
    · subst hx
      rw [freqAt, freqAt, cfLookup_update_self m x _ f hl, hl]
      simp only [Option.getD_some]
      rw [getD_set f i j _ 0 (by omega)]
      by_cases hji : i = j
      · subst hji
        simp
      · have hji2 : ¬(j = i) := fun h => hji h.symm
        simp [hji, hji2]
    · rw [freqAt, freqAt, cfLookup_update_ne m c x _ hx]
      simp [hx]
  | none =>
    by_cases hx : x = c
    · subst hx
      rw [freqAt, freqAt, hl, cfLookup_append_none m _ x hl]
      have hsing : cfLookup [(x, (List.replicate WORD_LEN 0).set i 1)] x =
          some ((List.replicate WORD_LEN 0).set i 1) := by
        simp [cfLookup]
      rw [hsing]
      simp only [Option.getD_some, Option.getD_none]
      rw [getD_set _ i j _ 0 (by simp only [List.length_replicate, WORD_LEN]; omega)]
      have hz : (List.replicate WORD_LEN (0 : Nat)).getD j 0 = 0 :=
        getD_replicate
      rw [hz]
      by_cases hji : i = j
      · subst hji
        simp
      · have hji2 : ¬(j = i) := fun h => hji h.symm
        simp [hji, hji2]
    · rw [freqAt, freqAt]
      cases hlx : cfLookup m x with
      | some g =>
        rw [cfLookup_append_some m _ x g hlx]
        simp [hx]
      | none =>
        rw [cfLookup_append_none m _ x hlx]
        simp only [cfLookup]
        rw [if_neg (fun h : c = x => hx h.symm)]
        simp [hx]

lemma cfWF_foldl_incr (w : List Char) :
    ∀ (is : List Nat) (m : CharFrequency), cfWF m →
      cfWF (is.foldl (fun m2 i => cfIncr m2 (w.getD i ' ') i) m)
  | [], _, h => h
  | i :: rest, m, h => by
    rw [List.foldl_cons]
    exact cfWF_foldl_incr w rest _ (cfWF_incr _ _ h)

lemma foldl_incr_freqAt (w : List Char) :
    ∀ (is : List Nat) (m : CharFrequency), cfWF m →
      (∀ i ∈ is, i < 5) → ∀ (x : Char) (j : Nat), j < 5 →
      freqAt (is.foldl (fun m2 i => cfIncr m2 (w.getD i ' ') i) m) x j =
        freqAt m x j +
          (is.filter (fun i => i = j ∧ w.getD i ' ' = x)).length
  | [], _, _, _, _, _, _ => by simp
  | i :: rest, m, hwf, hall, x, j, hj => by
    rw [List.foldl_cons, List.filter_cons,
      foldl_incr_freqAt w rest _ (cfWF_incr _ _ hwf)
        (fun i2 hi2 => hall i2 (by simp [hi2])) x j hj,
      freqAt_incr m _ i x j hwf (hall i (by simp)) hj]
    by_cases hcase : i = j ∧ w.getD i ' ' = x
    · rw [if_pos (decide_eq_true hcase),
        if_pos ⟨hcase.2.symm, hcase.1.symm⟩]
      simp
      omega
    · have hneg : ¬(x = w.getD i ' ' ∧ j = i) := by
        intro hcon
        exact hcase ⟨hcon.2.symm, hcon.1.symm⟩
      rw [if_neg hneg, if_neg (by simpa using hcase)]
      omega

lemma filter_range5_at (w : List Char) (x : Char) (j : Nat) (hj : j < 5) :
    ((List.range 5).filter
      (fun i => i = j ∧ w.getD i ' ' = x)).length =
      (if w.getD j ' ' = x then 1 else 0) := by
  by_cases hx : w.getD j ' ' = x
  · rw [if_pos hx]
    apply length_filter_eq_one_of_unique j
    · exact List.mem_filter.2 ⟨List.mem_range.2 hj,
        decide_eq_true ⟨rfl, hx⟩⟩
    · intro i hi
      exact (of_decide_eq_true (List.mem_filter.1 hi).2).1
  · rw [if_neg hx]
    rw [List.length_eq_zero, List.filter_eq_nil_iff]
    intro i hi hpi
    obtain ⟨hij, hwi⟩ := of_decide_eq_true hpi
    subst hij
    exact hx hwi

lemma cfWF_words_fold :
    ∀ (ws : List Word) (m : CharFrequency), cfWF m →
      cfWF (ws.foldl (fun m2 w => (List.range w.word.length).foldl
        (fun m3 i => cfIncr m3 (w.word.getD i ' ') i) m2) m)
  | [], _, h => h
  | w :: rest, m, h => by
    rw [List.foldl_cons]
    exact cfWF_words_fold rest _ (cfWF_foldl_incr w.word _ m h)

lemma words_fold_freqAt :
    ∀ (ws : List Word) (m : CharFrequency), cfWF m →
      (∀ w ∈ ws, w.word.length = 5) → ∀ (x : Char) (j : Nat), j < 5 →
      freqAt (ws.foldl (fun m2 w => (List.range w.word.length).foldl
        (fun m3 i => cfIncr m3 (w.word.getD i ' ') i) m2) m) x j =
        freqAt m x j +
          (ws.filter (fun w => w.word.getD j ' ' = x)).length
  | [], _, _, _, _, _, _ => by simp
  | w :: rest, m, hwf, hlens, x, j, hj => by
    have hw5 : w.word.length = 5 := hlens w (by simp)
    rw [List.foldl_cons, List.filter_cons,
      words_fold_freqAt rest _ (cfWF_foldl_incr w.word _ m hwf)
        (fun w2 hw2 => hlens w2 (by simp [hw2])) x j hj,
      foldl_incr_freqAt w.word _ m hwf
        (fun i hi => by
          have := List.mem_range.1 hi
          omega) x j hj,
      hw5, filter_range5_at w.word x j hj]
    by_cases hx : w.word.getD j ' ' = x
    · rw [if_pos hx, if_pos (show decide (w.word.getD j ' ' = x) = true from
        decide_eq_true hx)]
      simp only [List.length_cons]
      omega
    · rw [if_neg hx, if_neg (show ¬decide (w.word.getD j ' ' = x) = true from
        by simpa using hx)]
      omega

lemma zero_fold_lookup_not_mem :
    ∀ (ign : List Char) (m : CharFrequency) (x : Char), x ∉ ign →
      cfLookup (ign.foldl (fun m2 c =>
        match cfLookup m2 c with
        | some _ => cfUpdate m2 c (List.replicate WORD_LEN 0)
        | none => m2) m) x = cfLookup m x
  | [], _, _, _ => rfl
  | c :: rest, m, x, hx => by
    rw [List.foldl_cons]
    have hxc : x ≠ c := fun h => hx (by simp [h])
    have hxr : x ∉ rest := fun h => hx (by simp [h])
    rw [zero_fold_lookup_not_mem rest _ x hxr]
    cases hl : cfLookup m c with
    | some f => exact cfLookup_update_ne m c x _ hxc
    | none => rfl

lemma zero_fold_lookup_mem :
    ∀ (ign : List Char) (m : CharFrequency) (x : Char), x ∈ ign →
      ∀ v, cfLookup (ign.foldl (fun m2 c =>
        match cfLookup m2 c with
        | some _ => cfUpdate m2 c (List.replicate WORD_LEN 0)
        | none => m2) m) x = some v → v = List.replicate WORD_LEN 0
  | [], _, _, hx => nomatch hx
  | c :: rest, m, x, hx => by
    intro v hv
    rw [List.foldl_cons] at hv
    by_cases hxr : x ∈ rest
    · exact zero_fold_lookup_mem rest _ x hxr v hv
    · have hxc : x = c := by
        rcases List.mem_cons.1 hx with h | h
        · exact h
        · exact absurd h hxr
      subst hxc
      rw [zero_fold_lookup_not_mem rest _ x hxr] at hv
      cases hl : cfLookup m x with
      | some f =>
        rw [hl] at hv
        rw [cfLookup_update_self m x _ f hl] at hv
        injection hv with h2
        exact h2.symm
      | none =>
        rw [hl] at hv
        rw [hl] at hv
        cases hv

/-- C5: `Dictionary::filter` registers the clue's letter as resolved
exactly when no hint is `PresentElsewhereAllowed`; in the frequency
table, every resolved letter's stored vector (if any) is all zeros — so
its effective per-position counts are zero no matter how many words
contain it — while every other letter's entry at position `i` counts the
words holding it at position `i`. -/
theorem C5_resolved_letters_zeroed :
    (∀ (d : Dictionary) (clue : Clue),
      (d.filter clue).ignore_letters =
        (if ∃ h ∈ clue.hints, h = Hint.Maybe then d.ignore_letters
          else d.ignore_letters ++ [clue.c])) ∧
    (∀ d : Dictionary, (∀ w ∈ d.words, w.word.length = 5) →
      (∀ c ∈ d.ignore_letters,
        (∀ v, cfLookup d.char_frequency c = some v →
          v = List.replicate 5 0) ∧
        (∀ i, freqAt d.char_frequency c i = 0)) ∧
      (∀ c, c ∉ d.ignore_letters → ∀ i, i < 5 →
        freqAt d.char_frequency c i =
          (d.words.filter (fun w => w.word.getD i ' ' = c)).length)) := by
  constructor
  · intro d clue
    unfold Dictionary.filter
    by_cases hmay : ∃ h ∈ clue.hints, h = Hint.Maybe
    · rw [if_pos hmay]
      have : clue.hints.any (fun h => h = Hint.Maybe) = true := by
        obtain ⟨h0, hh0, hh0m⟩ := hmay
        exact List.any_eq_true.2 ⟨h0, hh0, decide_eq_true hh0m⟩
      rw [this]
      rfl
    · rw [if_neg hmay]
      have : clue.hints.any (fun h => h = Hint.Maybe) = false := by
        rw [← Bool.not_eq_true, List.any_eq_true]
        rintro ⟨h0, hh0, hh0m⟩
        exact hmay ⟨h0, hh0, of_decide_eq_true hh0m⟩
      rw [this]
      rfl
  · intro d hlens
    have hwfnil : cfWF ([] : CharFrequency) := fun p hp => nomatch hp
    have hcf : d.char_frequency =
        d.ignore_letters.foldl (fun m2 c =>
          match cfLookup m2 c with
          | some _ => cfUpdate m2 c (List.replicate WORD_LEN 0)
          | none => m2)
        (d.words.foldl (fun m2 w => (List.range w.word.length).foldl
          (fun m3 i => cfIncr m3 (w.word.getD i ' ') i) m2) []) := rfl
    rw [hcf]
    constructor
    · intro c hc
      constructor
      · intro v hv
        exact zero_fold_lookup_mem d.ignore_letters _ c hc v hv
      · intro i
        rw [freqAt]
        cases hl : cfLookup (d.ignore_letters.foldl (fun m2 c =>
            match cfLookup m2 c with
            | some _ => cfUpdate m2 c (List.replicate WORD_LEN 0)
            | none => m2)
          (d.words.foldl (fun m2 w => (List.range w.word.length).foldl
            (fun m3 i => cfIncr m3 (w.word.getD i ' ') i) m2) [])) c with
        | some v =>
          rw [zero_fold_lookup_mem d.ignore_letters _ c hc v hl]
          simp only [Option.getD_some]
          exact getD_replicate
        | none =>
          simp only [Option.getD_none]
          exact getD_replicate
    · intro c hc i hi
      rw [freqAt, zero_fold_lookup_not_mem d.ignore_letters _ c hc,
        ← freqAt]
      rw [words_fold_freqAt d.words [] hwfnil hlens c i hi]
      have hnil : freqAt [] c i = 0 :=
        @freqAt_of_lookup_none [] c rfl i
      rw [hnil]
      omega

/-- Witness for C5 at a concrete dictionary holding `"crane"` with the
letter `'e'` resolved. -/
theorem C5_resolved_letters_zeroed_witness :
    (∀ i, freqAt
      (Dictionary.char_frequency ⟨[⟨"crane".toList⟩], ['e']⟩) 'e' i = 0) ∧
    (∀ i, i < 5 → freqAt
      (Dictionary.char_frequency ⟨[⟨"crane".toList⟩], ['e']⟩) 'c' i =
        (([⟨"crane".toList⟩] : List Word).filter
          (fun w => w.word.getD i ' ' = 'c')).length) :=
  ⟨((C5_resolved_letters_zeroed.2 ⟨[⟨"crane".toList⟩], ['e']⟩
      (by decide)).1 'e' (by decide)).2,
    (C5_resolved_letters_zeroed.2 ⟨[⟨"crane".toList⟩], ['e']⟩
      (by decide)).2 'c' (by decide)⟩

/-! ## Scoring and ranking (C6) -/

lemma foldl_ite_add {α : Type} (p : α → Prop) [DecidablePred p]
    (g h : α → Nat) :
    ∀ (l : List α) (s : Nat),
      l.foldl (fun a x => if p x then a + g x else a + h x) s =
        s + (l.map (fun x => if p x then g x else h x)).sum
  | [], s => by simp
  | x :: l, s => by
    rw [List.foldl_cons, foldl_ite_add p g h l _, List.map_cons,
      List.sum_cons]
    by_cases hp : p x
    · rw [if_pos hp, if_pos hp]
      omega
    · rw [if_neg hp, if_neg hp]
      omega

lemma score_foldl (wchars : List Char) (freq : CharFrequency) :
    ∀ (chars : List Char) (s : Nat),
      chars.foldl (fun sc c =>
        match cfLookup freq c with
        | some f =>
          (List.range f.length).foldl
            (fun sc2 i =>
              if wchars.getD i ' ' = c then sc2 + f.getD i 0 * 4
              else sc2 + f.getD i 0) sc
        | none => sc) s =
      s + (chars.map (fun c =>
        match cfLookup freq c with
        | some f => ((List.range f.length).map (fun i =>
            if wchars.getD i ' ' = c then f.getD i 0 * 4
            else f.getD i 0)).sum
        | none => 0)).sum
  | [], s => by simp
  | c :: chars, s => by
    rw [List.foldl_cons, score_foldl wchars freq chars _,
      List.map_cons, List.sum_cons]
    cases hl : cfLookup freq c with
    | none =>
      dsimp only
      omega
    | some f =>
      dsimp only
      rw [foldl_ite_add (fun i => wchars.getD i ' ' = c)
        (fun i => f.getD i 0 * 4) (fun i => f.getD i 0) _ s]
      omega

lemma sum_range_list (g : Nat → Nat) : ∀ n : Nat,
    ((List.range n).map g).sum = ∑ i ∈ Finset.range n, g i
  | 0 => rfl
  | n + 1 => by
    rw [List.range_succ, List.map_append, List.sum_append,
      Finset.sum_range_succ, sum_range_list g n]
    simp

/-- The per-letter contribution in `Word::score`, expressed with
`freqAt`. -/
lemma score_letter_eq (wchars : List Char) (freq : CharFrequency)
    (hwf : cfWF freq) (c : Char) :
    (match cfLookup freq c with
      | some f => ((List.range f.length).map (fun i =>
          if wchars.getD i ' ' = c then f.getD i 0 * 4
          else f.getD i 0)).sum
      | none => 0) =
      ∑ i ∈ Finset.range 5,
        (if wchars.getD i ' ' = c then 4 * freqAt freq c i
          else freqAt freq c i) := by
  cases hl : cfLookup freq c with
  | none =>
    dsimp only
    symm
    apply Finset.sum_eq_zero
    intro i _
    have h0 : freqAt freq c i = 0 := freqAt_of_lookup_none hl i
    rw [h0]
    simp
  | some f =>
    dsimp only
    have hflen : f.length = 5 := hwf (c, f) (cfLookup_mem freq c f hl)
    have hfa : ∀ i, freqAt freq c i = f.getD i 0 := by
      intro i
      rw [freqAt, hl]
      rfl
    rw [hflen, sum_range_list]
    apply Finset.sum_congr rfl
    intro i _
    rw [hfa i]
    by_cases hc : wchars.getD i ' ' = c
    · rw [if_pos hc, if_pos hc, Nat.mul_comm]
    · rw [if_neg hc, if_neg hc]

/-- Head of the descending stable sort: the earliest word of maximal
score. -/
lemma insertionSort_head_spec (freq : CharFrequency) :
    ∀ ws : List Word, ws ≠ [] →
      ∃ b pre post,
        (List.insertionSort
          (fun a b => Word.score b freq ≤ Word.score a freq) ws).head? =
            some b ∧
        ws = pre ++ b :: post ∧
        (∀ w ∈ ws, w.score freq ≤ b.score freq) ∧
        (∀ w ∈ pre, w.score freq < b.score freq)
  | [], h => absurd rfl h
  | w :: ws, _ => by
    by_cases hws : ws = []
    · subst hws
      refine ⟨w, [], [], by simp [List.insertionSort, List.orderedInsert],
        by simp, ?_, by simp⟩
      intro u hu
      rcases List.mem_cons.1 hu with rfl | h2
      · exact Nat.le_refl _
      · cases h2
    · obtain ⟨b, pre, post, hhead, hsplit, hmax, hpre⟩ :=
        insertionSort_head_spec freq ws hws
      obtain ⟨t, ht⟩ : ∃ t, List.insertionSort
          (fun a b => Word.score b freq ≤ Word.score a freq) ws =
            b :: t := by
        cases hs : List.insertionSort
            (fun a b => Word.score b freq ≤ Word.score a freq) ws with
        | nil => rw [hs] at hhead; cases hhead
        | cons x t =>
          rw [hs] at hhead
          injection hhead with h2
          exact ⟨t, by rw [h2]⟩
      have hunf : List.insertionSort
          (fun a b => Word.score b freq ≤ Word.score a freq) (w :: ws) =
          List.orderedInsert
            (fun a b => Word.score b freq ≤ Word.score a freq) w
            (List.insertionSort
              (fun a b => Word.score b freq ≤ Word.score a freq) ws) :=
        rfl
      by_cases hcmp : Word.score b freq ≤ Word.score w freq
      · refine ⟨w, [], ws, ?_, by simp, ?_, by simp⟩
        · rw [hunf, ht]
          simp only [List.orderedInsert]
          rw [if_pos hcmp]
          rfl
        · intro u hu
          rcases List.mem_cons.1 hu with rfl | h2
          · exact Nat.le_refl _
          · exact Nat.le_trans (hmax u h2) hcmp
      · refine ⟨b, w :: pre, post, ?_, by rw [List.cons_append, ← hsplit],
          ?_, ?_⟩
        · rw [hunf, ht]
          simp only [List.orderedInsert]
          rw [if_neg hcmp]
          rfl
        · intro u hu
          rcases List.mem_cons.1 hu with rfl | h2
          · exact Nat.le_of_lt (Nat.lt_of_not_le hcmp)
          · exact hmax u h2
        · intro u hu
          rcases List.mem_cons.1 hu with rfl | h2
          · exact Nat.lt_of_not_le hcmp
          · exact hpre u h2

/-- C6: `Word::score` is the sum, over the word's distinct letters and
over the five positions, of four times the letter's positional count
where the word itself holds that letter and of the plain count
elsewhere, with letters absent from the table contributing zero; and
`Dictionary::sort` returns an earliest maximal-score word, leaving the
word collection's membership (and resolved letters) unchanged. -/
theorem C6_score_and_rank :
    (∀ (w : Word) (freq : CharFrequency), cfWF freq →
      w.score freq = ∑ c ∈ w.word.toFinset, ∑ i ∈ Finset.range 5,
        (if w.word.getD i ' ' = c then 4 * freqAt freq c i
          else freqAt freq c i)) ∧
    (∀ (d : Dictionary) (freq : CharFrequency), d.words ≠ [] →
      ∃ b pre post, (d.sort freq).1 = some b ∧
        d.words = pre ++ b :: post ∧
        (∀ w ∈ d.words, w.score freq ≤ b.score freq) ∧
        (∀ w ∈ pre, w.score freq < b.score freq) ∧
        (d.sort freq).2.words.Perm d.words ∧
        (d.sort freq).2.ignore_letters = d.ignore_letters) := by
  constructor
  · intro w freq hwf
    have hrw : w.score freq =
        ((dedupConsec (sortChars w.word)).map (fun c =>
          match cfLookup freq c with
          | some f => ((List.range f.length).map (fun i =>
              if w.word.getD i ' ' = c then f.getD i 0 * 4
              else f.getD i 0)).sum
          | none => 0)).sum := by
      show (dedupConsec (sortChars w.word)).foldl _ 0 = _
      rw [score_foldl w.word freq (dedupConsec (sortChars w.word)) 0]
      omega
    rw [hrw]
    have hnd := dedupConsec_sorted_nodup _ (sortChars_sorted w.word)
    have hfs : (dedupConsec (sortChars w.word)).toFinset =
        w.word.toFinset := by
      ext a
      simp [List.mem_toFinset, mem_dedupConsec, mem_sortChars]
    rw [List.map_congr_left
      (fun c _ => score_letter_eq w.word freq hwf c)]
    rw [← List.sum_toFinset _ hnd, hfs]
  · intro d freq hne
    obtain ⟨b, pre, post, hhead, hsplit, hmax, hpre⟩ :=
      insertionSort_head_spec freq d.words hne
    exact ⟨b, pre, post, hhead, hsplit, hmax, hpre,
      List.perm_insertionSort _ _, rfl⟩

/-- Witness for C6 at the word `"crane"`, a one-letter frequency table,
and a two-word dictionary. -/
theorem C6_score_and_rank_witness :
    (Word.score ⟨"crane".toList⟩ [('a', [1, 0, 2, 0, 0])] =
      ∑ c ∈ "crane".toList.toFinset, ∑ i ∈ Finset.range 5,
        (if "crane".toList.getD i ' ' = c
          then 4 * freqAt [('a', [1, 0, 2, 0, 0])] c i
          else freqAt [('a', [1, 0, 2, 0, 0])] c i)) ∧
    (∃ b pre post,
      (Dictionary.sort ⟨[⟨"abcdd".toList⟩, ⟨"abcde".toList⟩], []⟩ []).1 =
        some b ∧
      [(⟨"abcdd".toList⟩ : Word), ⟨"abcde".toList⟩] = pre ++ b :: post ∧
      (∀ w ∈ [(⟨"abcdd".toList⟩ : Word), ⟨"abcde".toList⟩],
        w.score [] ≤ b.score []) ∧
      (∀ w ∈ pre, w.score [] < b.score []) ∧
      (Dictionary.sort ⟨[⟨"abcdd".toList⟩, ⟨"abcde".toList⟩], []⟩
        []).2.words.Perm [⟨"abcdd".toList⟩, ⟨"abcde".toList⟩] ∧
      (Dictionary.sort ⟨[⟨"abcdd".toList⟩, ⟨"abcde".toList⟩], []⟩
        []).2.ignore_letters = []) :=
  ⟨C6_score_and_rank.1 ⟨"crane".toList⟩ [('a', [1, 0, 2, 0, 0])]
      (by
        intro p hp
        rw [List.mem_singleton.1 hp]
        rfl),
    C6_score_and_rank.2 ⟨[⟨"abcdd".toList⟩, ⟨"abcde".toList⟩], []⟩ []
      (by decide)⟩

end Lingo
